import Mathlib

/-!
PGMonitor (trunk/ceph/mon/PGMonitor.cc)

A shallow embedding of the placement-group monitor: the materialised map
`pg_map`, the pending incremental `pending_inc`, the read path
(`preprocess_query`), the write path (`prepare_update`, `handle_pg_stats`),
the round lifecycle (`create_pending`, `encode_pending`) and the catch-up
with the paxos log (`update_from_paxos`).

Conventions of the embedding.

* `std::map` / `hash_map` are association lists in which the first binding
  of a key is the one in force; `map_count`, `map_index` and `map_assign`
  are `count`, the rvalue `operator[]` (which inserts a default value under
  an absent key) and the assignment `m[k] = v`.
* Member functions take the state they read and return the state they
  leave; `assert` becomes the result `Outcome.assert_failed`.
* What the monitor does to its collaborators (paxos reads, the load and the
  write of the stored full map) is recorded, in order, in a list of events.
* Integers are unbounded (`Nat` for versions and report tokens, `Int` for
  the counters).
-/

namespace Ceph

/-! ## Data model -/

/-- Modelled from the spec: the declaration of `pg_t` is not part of the
sources; a placement-group id is an opaque identifier, here a number. -/
abbrev pg_t := Nat

/-- Modelled from the spec: the default constructor of `pg_t` is not part of
the sources; `pg_t pgid;` yields one fixed id, taken to be the zero id. -/
def pg_t_default : pg_t := 0

/-- Modelled from the spec: the declaration of `pg_stat_t` is not part of the
sources. A stat carries the report token `reported` and the capacity/usage
counters of the partition. -/
structure pg_stat_t where
  reported : Nat
  num_blocks : Int
  usage : Int
deriving DecidableEq, Repr

/-- Modelled from the spec: the default constructor of `pg_stat_t` is not part
of the sources; it is the value `operator[]` stores under an absent key. -/
def pg_stat_t_default : pg_stat_t := { reported := 0, num_blocks := 0, usage := 0 }

/-- A `map<pg_t,pg_stat_t>`: the first binding of a key is the one in force. -/
abbrev StatMap := List (pg_t × pg_stat_t)

/-- The binding of `k` in `m`, if any (`m.find(k)`). -/
def map_find : StatMap → pg_t → Option pg_stat_t
  | [], _ => none
  | (k', v') :: rest, k => if k' = k then some v' else map_find rest k

/-- The number of bindings of `k`, 0 or 1 (`m.count(k)`). -/
def map_count (m : StatMap) (k : pg_t) : Nat :=
  if (map_find m k).isSome then 1 else 0

/-- The assignment `m[k] = v`: overwrite the binding of `k`, or add one. -/
def map_assign : StatMap → pg_t → pg_stat_t → StatMap
  | [], k, v => [(k, v)]
  | (k', v') :: rest, k, v =>
    if k' = k then (k, v) :: rest else (k', v') :: map_assign rest k v

/-- The rvalue `m[k]`: the value bound to `k`; an absent key is first bound
to the default value, so the map is returned too. -/
def map_index (m : StatMap) (k : pg_t) : StatMap × pg_stat_t :=
  match map_find m k with
  | some v => (m, v)
  | none => (map_assign m k pg_stat_t_default, pg_stat_t_default)

/-- Modelled from the spec: the declaration of `PGMap` is not part of the
sources, which read its members `version`, `pg_stat` and `total_num_blocks`;
the map holds a version, the per-partition stats and the running aggregate. -/
structure PGMap where
  version : Nat
  pg_stat : StatMap
  total_num_blocks : Int
  total_usage : Int
deriving DecidableEq, Repr

/-- Modelled from the spec: the declaration of `PGMap::Incremental` is not part
of the sources, which read its members `version` and `pg_stat_updates`. -/
structure Incremental where
  version : Nat
  pg_stat_updates : StatMap
deriving DecidableEq, Repr

/-- Modelled from the spec: `PGMap::Incremental()` is not part of the sources;
a fresh incremental is created empty. -/
def Incremental_new : Incremental := { version := 0, pg_stat_updates := [] }

/-- Modelled from the spec: `PGMap()` is not part of the sources; the empty
map at version 0 with a zero aggregate. -/
def PGMap_new : PGMap :=
  { version := 0, pg_stat := [], total_num_blocks := 0, total_usage := 0 }

/-- Modelled from the spec: `PGMap::stat_add` is not part of the sources; it
adds the contribution of one partition to the aggregate. -/
def stat_add (m : PGMap) (s : pg_stat_t) : PGMap :=
  { m with total_num_blocks := m.total_num_blocks + s.num_blocks,
           total_usage := m.total_usage + s.usage }

/-- Modelled from the spec: `PGMap::stat_sub` is not part of the sources; it
subtracts the contribution of one partition from the aggregate. -/
def stat_sub (m : PGMap) (s : pg_stat_t) : PGMap :=
  { m with total_num_blocks := m.total_num_blocks - s.num_blocks,
           total_usage := m.total_usage - s.usage }

/-- The map with its `pg_stat` member replaced. -/
def PGMap.with_pg_stat (m : PGMap) (ps : StatMap) : PGMap := { m with pg_stat := ps }

/-- One update of an incremental applied to the map: subtract the old
contribution if a prior stat existed, overwrite, add the new contribution. -/
def apply_update (m : PGMap) (p : pg_t × pg_stat_t) : PGMap :=
  let m1 :=
    if map_count m.pg_stat p.1 ≠ 0 then
      let r := map_index m.pg_stat p.1
      stat_sub (m.with_pg_stat r.1) r.2
    else m
  let m2 := m1.with_pg_stat (map_assign m1.pg_stat p.1 p.2)
  stat_add m2 p.2

/-- Modelled from the spec: `PGMap::apply_incremental` is not part of the
sources; applying a diff advances `version` by exactly 1 and applies every
update of the diff. -/
def apply_incremental (m : PGMap) (inc : Incremental) : PGMap :=
  inc.pg_stat_updates.foldl apply_update { m with version := m.version + 1 }

/-- The sum of the `num_blocks` of all entries of a map. -/
def sum_num_blocks (m : StatMap) : Int := (m.map (fun e => e.2.num_blocks)).sum

/-- The sum of the `usage` of all entries of a map. -/
def sum_usage (m : StatMap) : Int := (m.map (fun e => e.2.usage)).sum

/-- The aggregate of the map equals the elementwise sum of its entries. -/
def aggregate_consistent (m : PGMap) : Prop :=
  m.total_num_blocks = sum_num_blocks m.pg_stat ∧ m.total_usage = sum_usage m.pg_stat

instance (m : PGMap) : Decidable (aggregate_consistent m) := by
  unfold aggregate_consistent; infer_instance

/-! ## Collaborators -/

/-- Modelled from the spec: `bufferlist` and the `_encode` / `_decode`
routines of the map and of the incremental are not part of the sources; they
are taken as parameters. `encode_map` and `encode_inc` give the bytes that
`_encode` writes. -/
structure Codec (B : Type) where
  encode_map : PGMap → B
  decode_map : B → PGMap
  encode_inc : Incremental → B
  decode_inc : B → Incremental

/-- Modelled from the spec: the class `Paxos` is not part of the sources. The
log as this monitor sees it: `get_version()` and `read(v, bl)`, which fails
(`none`) when the entry cannot be read. -/
structure Paxos (B : Type) where
  get_version : Nat
  read : Nat → Option B

/-- Modelled from the spec: the class `MonitorStore` is not part of the
sources; it holds blobs addressed by two strings. -/
abbrev MonitorStore (B : Type) := String → String → Option B

/-- The directory of the stored full map. -/
def pgmap_dir : String := "pgmap"

/-- The name of the stored full map. -/
def latest_name : String := "latest"

/-- Modelled from the spec: the call `store->exists_bl_ss(a, b)`. -/
def exists_bl_ss {B : Type} (st : MonitorStore B) (a b : String) : Bool := (st a b).isSome

/-- Modelled from the spec: the call `store->get_bl_ss(bl, a, b)`; it gives the
stored blob, an empty buffer if there is none. -/
def get_bl_ss {B : Type} [Inhabited B] (st : MonitorStore B) (a b : String) : B :=
  (st a b).getD default

/-- Modelled from the spec: the call `store->put_bl_ss(bl, a, b)`. -/
def put_bl_ss {B : Type} (st : MonitorStore B) (bl : B) (a b : String) : MonitorStore B :=
  fun x y => if x = a ∧ y = b then some bl else st x y

/-- What a call does to the collaborators, in order. -/
inductive Event where
  | load_latest
  | paxos_read (v : Nat)
  | put_latest
deriving DecidableEq, Repr

/-- How a member function ends: it returns a boolean, or an `assert` fails. -/
inductive Outcome where
  | returned (b : Bool)
  | assert_failed
deriving DecidableEq, Repr

/-- How a member function without a return value ends: it is done, with what
it produced, or an `assert` fails. -/
inductive Checked (α : Type) where
  | done (a : α)
  | assert_failed
deriving DecidableEq, Repr

/-! ## The monitor -/

/-- The members of `PGMonitor` the code reads and writes. -/
structure PGMonitor where
  pg_map : PGMap
  pending_inc : Incremental
deriving DecidableEq, Repr

/-- How the loop over the incrementals ends. -/
inductive WalkExit where
  | caught_up
  | read_failed
  | out_of_fuel
deriving DecidableEq, Repr

/-- The loop `while (paxosv > pg_map.version)` of `update_from_paxos`, at most
`fuel` iterations: read the next incremental, decode and apply it; a failed
read ends the loop. Returns the way out, the map and the events so far. -/
def walk_incrementals {B : Type} (c : Codec B) (paxos : Paxos B) (paxosv : Nat) :
    Nat → PGMap → List Event → WalkExit × PGMap × List Event
  | 0, m, tr => if paxosv > m.version then (.out_of_fuel, m, tr) else (.caught_up, m, tr)
  | fuel + 1, m, tr =>
    if paxosv > m.version then
      match paxos.read (m.version + 1) with
      | some bl =>
        walk_incrementals c paxos paxosv fuel
          (apply_incremental m (c.decode_inc bl)) (tr ++ [Event.paxos_read (m.version + 1)])
      | none => (.read_failed, m, tr ++ [Event.paxos_read (m.version + 1)])
    else (.caught_up, m, tr)

/-- The result of `update_from_paxos`. `outcome = none` stands for a loop that
did not end within its fuel. -/
structure SyncResult (B : Type) where
  outcome : Option Outcome
  pg_map : PGMap
  store : MonitorStore B
  trace : List Event

/-- The start-up step of `update_from_paxos`: when the map is at version 0,
the log is beyond version 1 and a stored full map exists, load and decode it.
Returns the map to walk from and the events so far. -/
def load_latest {B : Type} [Inhabited B] (c : Codec B) (paxosv : Nat)
    (store : MonitorStore B) (pg_map : PGMap) : PGMap × List Event :=
  if pg_map.version = 0 ∧ paxosv > 1 ∧ exists_bl_ss store pgmap_dir latest_name = true then
    (c.decode_map (get_bl_ss store pgmap_dir latest_name), [Event.load_latest])
  else (pg_map, [])

/-- The source's `PGMonitor::update_from_paxos`. -/
def update_from_paxos {B : Type} [Inhabited B] (c : Codec B) (paxos : Paxos B)
    (store : MonitorStore B) (pg_map : PGMap) : SyncResult B :=
  let paxosv := paxos.get_version
  if paxosv = pg_map.version then
    { outcome := some (.returned true), pg_map := pg_map, store := store, trace := [] }
  else if ¬ (paxosv ≥ pg_map.version) then
    { outcome := some .assert_failed, pg_map := pg_map, store := store, trace := [] }
  else
    -- starting up: load latest
    let start := load_latest c paxosv store pg_map
    -- walk through incrementals
    match walk_incrementals c paxos paxosv (paxosv - start.1.version) start.1 start.2 with
    | (.caught_up, m, tr) =>
      -- save latest
      { outcome := some (.returned true), pg_map := m,
        store := put_bl_ss store (c.encode_map m) pgmap_dir latest_name,
        trace := tr ++ [Event.put_latest] }
    | (.read_failed, m, tr) =>
      { outcome := some (.returned false), pg_map := m, store := store, trace := tr }
    | (.out_of_fuel, m, tr) =>
      { outcome := none, pg_map := m, store := store, trace := tr }

/-- The source's `PGMonitor::create_pending`. -/
def create_pending (s : PGMonitor) : PGMonitor :=
  let pending_inc := Incremental_new
  { s with pending_inc := { pending_inc with version := s.pg_map.version + 1 } }

/-- The source's `PGMonitor::encode_pending`: the state it leaves and the bytes
written to `bl`, unless an `assert` fails. `is_leader` is `mon->is_leader()`. -/
def encode_pending {B : Type} (c : Codec B) (is_leader : Bool) (paxos : Paxos B)
    (s : PGMonitor) : PGMonitor × Checked B :=
  if ¬ (is_leader = true) then (s, .assert_failed)
  else if ¬ (paxos.get_version + 1 = s.pending_inc.version) then (s, .assert_failed)
  else (s, .done (c.encode_inc s.pending_inc))

/-- The `struct statvfs` of a statfs message. -/
structure statvfs where
  f_bsize : Int
  f_frsize : Int
  f_blocks : Int
  f_bfree : Int
  f_bavail : Int
  f_files : Int
  f_ffree : Int
  f_favail : Int
  f_fsid : Int
  f_flag : Int
  f_namemax : Int
deriving DecidableEq, Repr

/-- The flag `ST_NOATIME` of `<sys/statvfs.h>`. -/
def ST_NOATIME : Int := 1024

/-- The flag `ST_NODIRATIME` of `<sys/statvfs.h>`. -/
def ST_NODIRATIME : Int := 2048

/-- Modelled from the spec: the declaration of `MStatfs` is not part of the
sources; a capacity query and, once filled, its reply. -/
structure MStatfs where
  stfs : statvfs
deriving DecidableEq, Repr

/-- Modelled from the spec: the declaration of `MPGStats` is not part of the
sources; a batch of stats, the pairs in the order of iteration. -/
structure MPGStats where
  pg_stat : List (pg_t × pg_stat_t)
deriving DecidableEq, Repr

/-- A message, by its `get_type()`. -/
inductive Message where
  | statfs (m : MStatfs)
  | pgstats (m : MPGStats)
  | other (type : Nat)
deriving DecidableEq, Repr

/-- The state a handler leaves, how it ends, and the messages it sent. -/
structure Handled where
  state : PGMonitor
  outcome : Outcome
  sent : List MStatfs
deriving DecidableEq, Repr

/-- The source's `PGMonitor::handle_statfs`: fill out `stfs` and send the message back. -/
def handle_statfs (s : PGMonitor) (statfs : MStatfs) : PGMonitor × List MStatfs :=
  let zero : statvfs :=
    { f_bsize := 0, f_frsize := 0, f_blocks := 0, f_bfree := 0, f_bavail := 0, f_files := 0,
      f_ffree := 0, f_favail := 0, f_fsid := 0, f_flag := 0, f_namemax := 0 }
  let st1 := { zero with f_blocks := s.pg_map.total_num_blocks }
  let st2 := { st1 with f_fsid := 0 }
  let st3 := { st2 with f_flag := Int.lor ST_NOATIME ST_NODIRATIME }
  (s, [{ statfs with stfs := st3 }])

/-- The monitor with the `pg_stat` member of its map replaced. -/
def PGMonitor.with_pg_stat (s : PGMonitor) (ps : StatMap) : PGMonitor :=
  { s with pg_map := s.pg_map.with_pg_stat ps }

/-- The monitor with the updates of its pending incremental replaced. -/
def PGMonitor.with_updates (s : PGMonitor) (us : StatMap) : PGMonitor :=
  { s with pending_inc := { s.pending_inc with pg_stat_updates := us } }

/-- The loop of the `MSG_PGSTATS` case of `preprocess_query`: `false` at the
first pair that is absent from the map or strictly newer, `true` otherwise. -/
def preprocess_pg_stats : PGMonitor → List (pg_t × pg_stat_t) → PGMonitor × Bool
  | s, [] => (s, true)
  | s, p :: rest =>
    if map_count s.pg_map.pg_stat p.1 = 0 then (s, false)
    else
      let r := map_index s.pg_map.pg_stat p.1
      let s1 := s.with_pg_stat r.1
      if r.2.reported < p.2.reported then (s1, false)
      else preprocess_pg_stats s1 rest

/-- The source's `PGMonitor::preprocess_query`. -/
def preprocess_query (s : PGMonitor) (m : Message) : Handled :=
  match m with
  | .statfs q =>
    let r := handle_statfs s q
    { state := r.1, outcome := .returned true, sent := r.2 }
  | .pgstats stats =>
    let r := preprocess_pg_stats s stats.pg_stat
    { state := r.1, outcome := .returned r.2, sent := [] }
  | .other _ => { state := s, outcome := .assert_failed, sent := [] }

/-- The body of the loop of `handle_pg_stats`, for the pair `p` of the batch.
The id `pgid` is declared in the body and is not assigned from `p`. Returns
the state after the body and whether the pair was staged (`false` when the
body leaves by one of its two `continue` statements). -/
def handle_pg_stats_iter (s : PGMonitor) (p : pg_t × pg_stat_t) : PGMonitor × Bool :=
  let pgid : pg_t := pg_t_default
  -- the map has pgid, reported at least as late: continue
  let c1 : PGMonitor × Bool :=
    if map_count s.pg_map.pg_stat pgid ≠ 0 then
      let r := map_index s.pg_map.pg_stat pgid
      (s.with_pg_stat r.1, decide (r.2.reported ≥ p.2.reported))
    else (s, false)
  if c1.2 = true then (c1.1, false)
  else
    -- the pending incremental has pgid, reported at least as late: continue
    let c2 : PGMonitor × Bool :=
      if map_count c1.1.pending_inc.pg_stat_updates pgid ≠ 0 then
        let r := map_index c1.1.pending_inc.pg_stat_updates pgid
        (c1.1.with_updates r.1, decide (r.2.reported ≥ p.2.reported))
      else (c1.1, false)
    if c2.2 = true then (c2.1, false)
    else
      let s3 := c2.1.with_updates (map_assign c2.1.pending_inc.pg_stat_updates pgid p.2)
      -- apply to live map
      let s4 : PGMonitor :=
        if map_count s3.pg_map.pg_stat pgid ≠ 0 then
          let r := map_index s3.pg_map.pg_stat pgid
          { s3 with pg_map := stat_sub (s3.pg_map.with_pg_stat r.1) r.2 }
        else s3
      let s5 := s4.with_pg_stat (map_assign s4.pg_map.pg_stat pgid p.2)
      let r := map_index s5.pg_map.pg_stat pgid
      ({ s5 with pg_map := stat_add (s5.pg_map.with_pg_stat r.1) r.2 }, true)

/-- The source's `PGMonitor::handle_pg_stats`: the loop over the batch; returns `true`. -/
def handle_pg_stats (s : PGMonitor) (stats : MPGStats) : PGMonitor × Bool :=
  (stats.pg_stat.foldl (fun t p => (handle_pg_stats_iter t p).1) s, true)

/-- The source's `PGMonitor::prepare_update`. -/
def prepare_update (s : PGMonitor) (m : Message) : Handled :=
  match m with
  | .pgstats stats =>
    let r := handle_pg_stats s stats
    { state := r.1, outcome := .returned r.2, sent := [] }
  | _ => { state := s, outcome := .assert_failed, sent := [] }

/-! ## Vocabulary of the properties -/

/-- One pair fed to the write path: `handle_pg_stats` on the batch of that
pair alone. -/
def feed (s : PGMonitor) (p : pg_t × pg_stat_t) : PGMonitor :=
  (handle_pg_stats s { pg_stat := [p] }).1

/-- A sequence of pairs fed to the write path one after another. -/
def feed_all (s : PGMonitor) (seq : List (pg_t × pg_stat_t)) : PGMonitor :=
  seq.foldl feed s

/-- A sequence of batches handled by the write path one after another. -/
def handle_all (s : PGMonitor) (batches : List MPGStats) : PGMonitor :=
  batches.foldl (fun t b => (handle_pg_stats t b).1) s

/-- The `reported` value the map stores under `k`, if it stores one. -/
def stored_reported (s : PGMonitor) (k : pg_t) : Option Nat :=
  (map_find s.pg_map.pg_stat k).map (fun v => v.reported)

/-- The maximum of an initial value (if any) and the `reported` values that a
sequence presents for the id `k`. -/
def max_presented (init : Option Nat) (seq : List (pg_t × pg_stat_t)) (k : pg_t) :
    Option Nat :=
  seq.foldl
    (fun acc p =>
      if p.1 = k then
        match acc with
        | none => some p.2.reported
        | some a => some (max a p.2.reported)
      else acc)
    init

/-- A stored value `b` is at least the value `a` stored before: if there was a
value before, there is one after and it is not smaller. -/
def reported_le : Option Nat → Option Nat → Bool
  | none, _ => true
  | some _, none => false
  | some a, some b => decide (a ≤ b)

/-- The map obtained from `m` by applying the next `n` log entries in order,
stopping at an entry that cannot be read. -/
def replay {B : Type} (c : Codec B) (paxos : Paxos B) : Nat → PGMap → PGMap
  | 0, m => m
  | n + 1, m =>
    match paxos.read (m.version + 1) with
    | some bl => replay c paxos n (apply_incremental m (c.decode_inc bl))
    | none => m

/-- The versions read from the log, in the order of the reads. -/
def reads_of : List Event → List Nat
  | [] => []
  | Event.paxos_read v :: rest => v :: reads_of rest
  | _ :: rest => reads_of rest

/-- The keys of a map are pairwise different, as they are in every
`map<pg_t,pg_stat_t>`. -/
def unique_keys (m : StatMap) : Prop := (m.map Prod.fst).Nodup

instance (m : StatMap) : Decidable (unique_keys m) := by
  unfold unique_keys; infer_instance

/-- Every update staged in the pending incremental is in the map, under the
same id and with the same stat. -/
def staged_mirrored (s : PGMonitor) : Prop :=
  ∀ (k : pg_t) (w : pg_stat_t),
    map_find s.pending_inc.pg_stat_updates k = some w → map_find s.pg_map.pg_stat k = some w

/-! ## Fixtures for the concrete instances -/

/-- A buffer that holds the logical content it encodes. -/
inductive Blob where
  | empty
  | of_map (m : PGMap)
  | of_inc (i : Incremental)
deriving DecidableEq, Repr

instance : Inhabited Blob := ⟨Blob.empty⟩

/-- The codec of `Blob`: encoding and decoding round-trip exactly. -/
def blob_codec : Codec Blob :=
  { encode_map := Blob.of_map
    decode_map := fun b =>
      match b with
      | Blob.of_map m => m
      | _ => PGMap_new
    encode_inc := Blob.of_inc
    decode_inc := fun b =>
      match b with
      | Blob.of_inc i => i
      | _ => Incremental_new }

/-- The partition `P1` of the scenarios: an id other than the default one. -/
def P1 : pg_t := 1

/-- The state of the scenarios: `P1` committed with `reported = 5`, nothing
staged. -/
def p1_at_5 : PGMonitor :=
  { pg_map :=
      { version := 3
        pg_stat := [(P1, { reported := 5, num_blocks := 10, usage := 40 })]
        total_num_blocks := 10
        total_usage := 40 }
    pending_inc := { version := 4, pg_stat_updates := [] } }

/-- A state with the default id committed with `reported = 5`, nothing
staged. -/
def default_at_5 : PGMonitor :=
  { pg_map :=
      { version := 3
        pg_stat := [(pg_t_default, { reported := 5, num_blocks := 10, usage := 40 })]
        total_num_blocks := 10
        total_usage := 40 }
    pending_inc := { version := 4, pg_stat_updates := [] } }

/-- The report of the scenarios: (`P1`, reported 7, usage 100). -/
def report_7 : pg_t × pg_stat_t := (P1, { reported := 7, num_blocks := 12, usage := 100 })

/-- A stale report for `P1`: (`P1`, reported 3). -/
def report_3 : pg_t × pg_stat_t := (P1, { reported := 3, num_blocks := 8, usage := 30 })

/-- A log at version `n` whose entries 1 to `n` can all be read; the entry at
`v` is an incremental for version `v` without updates. -/
def full_log (n : Nat) : Paxos Blob :=
  { get_version := n
    read := fun v =>
      if 1 ≤ v ∧ v ≤ n then some (Blob.of_inc { version := v, pg_stat_updates := [] })
      else none }

/-- A log at version `n` of which only the entries 1 to `k` can be read. -/
def short_log (n k : Nat) : Paxos Blob :=
  { get_version := n
    read := fun v =>
      if 1 ≤ v ∧ v ≤ k then some (Blob.of_inc { version := v, pg_stat_updates := [] })
      else none }

/-- A store that holds nothing. -/
def empty_store : MonitorStore Blob := fun _ _ => none

/-- A store that holds, as the stored full map, the empty map at version `v`. -/
def store_at (v : Nat) : MonitorStore Blob :=
  put_bl_ss empty_store (Blob.of_map { PGMap_new with version := v }) pgmap_dir latest_name

/-- A report for the default id, reported at 3. -/
def default_report_3 : pg_t × pg_stat_t :=
  (pg_t_default, { reported := 3, num_blocks := 8, usage := 30 })

/-- A report for the default id, reported at 7. -/
def default_report_7 : pg_t × pg_stat_t :=
  (pg_t_default, { reported := 7, num_blocks := 12, usage := 100 })

/-- A capacity query with nothing filled in yet but stale values. -/
def a_statfs : MStatfs :=
  { stfs :=
      { f_bsize := 1, f_frsize := 2, f_blocks := 3, f_bfree := 4, f_bavail := 5, f_files := 6,
        f_ffree := 7, f_favail := 8, f_fsid := 9, f_flag := 10, f_namemax := 11 } }

/-! ## Maps -/

theorem map_count_eq_zero_iff (m : StatMap) (k : pg_t) :
    map_count m k = 0 ↔ map_find m k = none := by
  unfold map_count
  cases h : map_find m k <;> simp

theorem map_count_ne_zero_iff (m : StatMap) (k : pg_t) :
    map_count m k ≠ 0 ↔ ∃ v, map_find m k = some v := by
  unfold map_count
  cases h : map_find m k <;> simp

theorem map_index_of_find {m : StatMap} {k : pg_t} {v : pg_stat_t}
    (h : map_find m k = some v) : map_index m k = (m, v) := by
  simp [map_index, h]

theorem map_find_assign_same (m : StatMap) (k : pg_t) (v : pg_stat_t) :
    map_find (map_assign m k v) k = some v := by
  induction m with
  | nil => simp [map_assign, map_find]
  | cons e rest ih =>
    obtain ⟨k', v'⟩ := e
    by_cases hk : k' = k
    · simp [map_assign, map_find, hk]
    · simp [map_assign, map_find, hk, ih]

theorem map_find_assign_other (m : StatMap) (k j : pg_t) (v : pg_stat_t) (hj : j ≠ k) :
    map_find (map_assign m k v) j = map_find m j := by
  induction m with
  | nil =>
    have : ¬ k = j := fun h => hj h.symm
    simp [map_assign, map_find, this]
  | cons e rest ih =>
    obtain ⟨k', v'⟩ := e
    by_cases hk : k' = k
    · have h1 : ¬ k = j := fun h => hj h.symm
      have h2 : ¬ k' = j := fun h => hj (h.symm.trans hk)
      simp [map_assign, map_find, hk, h1]
    · by_cases hkj : k' = j
      · subst hkj
        simp [map_assign, map_find, hk]
      · simp [map_assign, map_find, hk, hkj, ih]

theorem sum_num_blocks_assign (m : StatMap) (k : pg_t) (v : pg_stat_t) :
    sum_num_blocks (map_assign m k v) =
      sum_num_blocks m - ((map_find m k).map (fun o => o.num_blocks)).getD 0 + v.num_blocks := by
  induction m with
  | nil => simp [map_assign, map_find, sum_num_blocks]
  | cons e rest ih =>
    obtain ⟨k', v'⟩ := e
    by_cases hk : k' = k
    · simp [map_assign, map_find, sum_num_blocks, hk]
      ring
    · simp only [sum_num_blocks] at ih
      simp [map_assign, map_find, sum_num_blocks, hk, ih]
      ring

theorem sum_usage_assign (m : StatMap) (k : pg_t) (v : pg_stat_t) :
    sum_usage (map_assign m k v) =
      sum_usage m - ((map_find m k).map (fun o => o.usage)).getD 0 + v.usage := by
  induction m with
  | nil => simp [map_assign, map_find, sum_usage]
  | cons e rest ih =>
    obtain ⟨k', v'⟩ := e
    by_cases hk : k' = k
    · simp [map_assign, map_find, sum_usage, hk]
      ring
    · simp only [sum_usage] at ih
      simp [map_assign, map_find, sum_usage, hk, ih]
      ring

/-! ## The body of the write-path loop -/

theorem with_pg_stat_self (s : PGMonitor) : s.with_pg_stat s.pg_map.pg_stat = s := by
  cases s; rfl

theorem with_updates_self (s : PGMonitor) :
    s.with_updates s.pending_inc.pg_stat_updates = s := by
  cases s; rfl

/-- The two ways through the body of the loop. Either the map or the pending
incremental binds the default id to a stat reported at least as late as the
pair, and the body leaves the state as it is; or neither does, and the stat of
the pair is bound to the default id in the pending incremental and in the map,
the aggregate losing the old contribution and gaining the new one. -/
theorem handle_pg_stats_iter_cases (s : PGMonitor) (p : pg_t × pg_stat_t) :
    ((∃ v, map_find s.pg_map.pg_stat pg_t_default = some v ∧ p.2.reported ≤ v.reported) ∨
      (∃ w, map_find s.pending_inc.pg_stat_updates pg_t_default = some w ∧
        p.2.reported ≤ w.reported)) ∧
      handle_pg_stats_iter s p = (s, false) ∨
    ((∀ v, map_find s.pg_map.pg_stat pg_t_default = some v → v.reported < p.2.reported) ∧
      (∀ w, map_find s.pending_inc.pg_stat_updates pg_t_default = some w →
        w.reported < p.2.reported)) ∧
      handle_pg_stats_iter s p =
        ({ pg_map :=
            { version := s.pg_map.version
              pg_stat := map_assign s.pg_map.pg_stat pg_t_default p.2
              total_num_blocks :=
                s.pg_map.total_num_blocks
                  - ((map_find s.pg_map.pg_stat pg_t_default).map
                      (fun o => o.num_blocks)).getD 0
                  + p.2.num_blocks
              total_usage :=
                s.pg_map.total_usage
                  - ((map_find s.pg_map.pg_stat pg_t_default).map (fun o => o.usage)).getD 0
                  + p.2.usage }
           pending_inc :=
            { version := s.pending_inc.version
              pg_stat_updates :=
                map_assign s.pending_inc.pg_stat_updates pg_t_default p.2 } }, true) := by
  obtain ⟨⟨ver, ps, tb, tu⟩, ⟨pv, us⟩⟩ := s
  cases hM : map_find ps pg_t_default with
  | none =>
    cases hP : map_find us pg_t_default with
    | none =>
      right
      simp [handle_pg_stats_iter, map_count, map_index, hM, hP, PGMonitor.with_pg_stat,
        PGMonitor.with_updates, PGMap.with_pg_stat, stat_add, stat_sub, map_find_assign_same]
    | some w =>
      by_cases hw : p.2.reported ≤ w.reported
      · left
        simp [handle_pg_stats_iter, map_count, map_index, hM, hP, PGMonitor.with_pg_stat,
          PGMonitor.with_updates, PGMap.with_pg_stat, hw]
      · right
        have hw2 : w.reported < p.2.reported := Nat.lt_of_not_le hw
        simp [handle_pg_stats_iter, map_count, map_index, hM, hP, PGMonitor.with_pg_stat,
          PGMonitor.with_updates, PGMap.with_pg_stat, stat_add, stat_sub,
          map_find_assign_same, hw, hw2]
  | some v =>
    by_cases hv : p.2.reported ≤ v.reported
    · left
      simp [handle_pg_stats_iter, map_count, map_index, hM, PGMonitor.with_pg_stat,
        PGMap.with_pg_stat, hv]
    · have hv2 : v.reported < p.2.reported := Nat.lt_of_not_le hv
      cases hP : map_find us pg_t_default with
      | none =>
        right
        simp [handle_pg_stats_iter, map_count, map_index, hM, hP, PGMonitor.with_pg_stat,
          PGMonitor.with_updates, PGMap.with_pg_stat, stat_add, stat_sub,
          map_find_assign_same, hv, hv2]
      | some w =>
        by_cases hw : p.2.reported ≤ w.reported
        · left
          simp [handle_pg_stats_iter, map_count, map_index, hM, hP, PGMonitor.with_pg_stat,
            PGMonitor.with_updates, PGMap.with_pg_stat, hv, hw]
        · right
          have hw2 : w.reported < p.2.reported := Nat.lt_of_not_le hw
          simp [handle_pg_stats_iter, map_count, map_index, hM, hP, PGMonitor.with_pg_stat,
            PGMonitor.with_updates, PGMap.with_pg_stat, stat_add, stat_sub,
            map_find_assign_same, hv, hv2, hw, hw2]

theorem feed_eq (s : PGMonitor) (p : pg_t × pg_stat_t) :
    feed s p = (handle_pg_stats_iter s p).1 := by
  simp [feed, handle_pg_stats]

theorem reported_le_refl (a : Option Nat) : reported_le a a = true := by
  cases a <;> simp [reported_le]

/-- One pair fed to the write path never lowers, and never removes, the
`reported` value stored under any id. -/
theorem feed_monotone (s : PGMonitor) (p : pg_t × pg_stat_t) (k : pg_t) :
    reported_le (stored_reported s k) (stored_reported (feed s p) k) = true := by
  rw [feed_eq]
  rcases handle_pg_stats_iter_cases s p with ⟨_, h⟩ | ⟨⟨hm, _⟩, h⟩
  · rw [h]; exact reported_le_refl _
  · rw [h]
    by_cases hk : k = pg_t_default
    · subst hk
      cases hM : map_find s.pg_map.pg_stat pg_t_default with
      | none => simp [stored_reported, hM, reported_le]
      | some v =>
        have := hm v hM
        simp [stored_reported, hM, reported_le, map_find_assign_same]
        omega
    · simp [stored_reported, map_find_assign_other _ _ _ _ hk, reported_le_refl]

/-! ## C1: monotonic merge -/

/-- C1, the code at the failing input. The state is the one `create_pending`
leaves with `P1` committed at `reported = 5` and nothing staged. The pair
(`P1`, reported 7) is fed to `handle_pg_stats`: the maximum of the initial
stored value and the values presented for `P1` is 7, yet the map still stores
5 under `P1`, because the pair is written under the default id. -/
theorem C1_failing_input :
    create_pending p1_at_5 = p1_at_5 ∧
      stored_reported p1_at_5 P1 = some 5 ∧
      max_presented (stored_reported p1_at_5 P1) [report_7] P1 = some 7 ∧
      stored_reported (feed_all p1_at_5 [report_7]) P1 = some 5 ∧
      stored_reported (feed_all p1_at_5 [report_7]) pg_t_default = some 7 := by
  decide

/-! ## C2, C3: the key of the merge -/

/-- C2, the code at the failing input. `P1` is committed with `reported = 5`
and the pair (`P1`, reported 3) arrives: the map holds a stat for `P1` that is
at least as new, yet the body of the loop looks up the default id, finds
nothing, does not discard the pair and changes both the map and the pending
incremental. -/
theorem C2_failing_input :
    stored_reported p1_at_5 P1 = some 5 ∧
      (handle_pg_stats_iter p1_at_5 report_3).2 = true ∧
      (handle_pg_stats_iter p1_at_5 report_3).1.pg_map ≠ p1_at_5.pg_map ∧
      (handle_pg_stats_iter p1_at_5 report_3).1.pending_inc ≠ p1_at_5.pending_inc ∧
      map_find (handle_pg_stats_iter p1_at_5 report_3).1.pg_map.pg_stat pg_t_default
        = some report_3.2 := by
  decide

/-- C3, the code at the failing input. `P1` is committed with `reported = 5`
and the report (`P1`, reported 7, usage 100) arrives: it is not discarded, but
it is stored and staged under the default id; the map still has
`reported = 5` under `P1` and nothing is staged for `P1`. -/
theorem C3_failing_input :
    (handle_pg_stats_iter p1_at_5 report_7).2 = true ∧
      stored_reported (feed p1_at_5 report_7) P1 = some 5 ∧
      map_find (feed p1_at_5 report_7).pending_inc.pg_stat_updates P1 = none ∧
      map_find (feed p1_at_5 report_7).pg_map.pg_stat pg_t_default = some report_7.2 ∧
      map_find (feed p1_at_5 report_7).pending_inc.pg_stat_updates pg_t_default
        = some report_7.2 := by
  decide

/-! ## C4: aggregate consistency -/

theorem handle_pg_stats_iter_consistent (s : PGMonitor) (p : pg_t × pg_stat_t)
    (h : aggregate_consistent s.pg_map) :
    aggregate_consistent (handle_pg_stats_iter s p).1.pg_map := by
  rcases handle_pg_stats_iter_cases s p with ⟨_, e⟩ | ⟨_, e⟩
  · rw [e]; exact h
  · rw [e]
    obtain ⟨h1, h2⟩ := h
    constructor
    · simp only [sum_num_blocks_assign, h1]
    · simp only [sum_usage_assign, h2]

theorem handle_pg_stats_consistent (batch : List (pg_t × pg_stat_t)) :
    ∀ s : PGMonitor, aggregate_consistent s.pg_map →
      aggregate_consistent
        (batch.foldl (fun t p => (handle_pg_stats_iter t p).1) s).pg_map := by
  induction batch with
  | nil => intro s h; exact h
  | cons p rest ih =>
    intro s h
    exact ih _ (handle_pg_stats_iter_consistent s p h)

theorem handle_all_consistent (batches : List MPGStats) :
    ∀ s : PGMonitor, aggregate_consistent s.pg_map →
      aggregate_consistent (handle_all s batches).pg_map := by
  induction batches with
  | nil => intro s h; exact h
  | cons b rest ih =>
    intro s h
    exact ih _ (handle_pg_stats_consistent b.pg_stat s h)

/-- C4. If the aggregate of the map equals the elementwise sum over all entries
of `pg_stat` before a call of `handle_pg_stats`, it still does after the call,
whatever the batch; hence it does after every finite sequence of calls that
starts from the empty map with a zero aggregate, whatever the pending
incremental is. -/
theorem C4_aggregate_consistency (s : PGMonitor) (stats : MPGStats)
    (h : aggregate_consistent s.pg_map) :
    aggregate_consistent (handle_pg_stats s stats).1.pg_map ∧
      ∀ (pending : Incremental) (batches : List MPGStats),
        aggregate_consistent
          (handle_all { pg_map := PGMap_new, pending_inc := pending } batches).pg_map := by
  constructor
  · exact handle_pg_stats_consistent stats.pg_stat s h
  · intro pending batches
    apply handle_all_consistent
    constructor <;> rfl

/-- C4, witness. `P1` is committed with 10 blocks and the aggregate is 10; a
batch of two reports is handled; the aggregate equals the sum of the entries
after the call. -/
theorem C4_aggregate_consistency_witness :
    aggregate_consistent p1_at_5.pg_map ∧
      aggregate_consistent
        (handle_pg_stats p1_at_5 { pg_stat := [report_3, report_7] }).1.pg_map :=
  ⟨by decide, (C4_aggregate_consistency p1_at_5 { pg_stat := [report_3, report_7] }
    (by decide)).1⟩

/-! ## C5: the read path on a stats report -/

theorem preprocess_pg_stats_spec (batch : List (pg_t × pg_stat_t)) (s : PGMonitor) :
    (preprocess_pg_stats s batch).1 = s ∧
      ((preprocess_pg_stats s batch).2 = true ↔
        ∀ p ∈ batch, ∃ v, map_find s.pg_map.pg_stat p.1 = some v ∧
          p.2.reported ≤ v.reported) := by
  induction batch with
  | nil => simp [preprocess_pg_stats]
  | cons p rest ih =>
    obtain ⟨ih1, ih2⟩ := ih
    cases hM : map_find s.pg_map.pg_stat p.1 with
    | none =>
      have hc : map_count s.pg_map.pg_stat p.1 = 0 := (map_count_eq_zero_iff _ _).2 hM
      simp [preprocess_pg_stats, hc, hM]
    | some v =>
      have hc : ¬ map_count s.pg_map.pg_stat p.1 = 0 := by
        rw [map_count_eq_zero_iff, hM]; simp
      by_cases hlt : v.reported < p.2.reported
      · simp [preprocess_pg_stats, hc, map_index_of_find hM, with_pg_stat_self, hlt, hM]
      · have hle : p.2.reported ≤ v.reported := Nat.le_of_not_lt hlt
        simp [preprocess_pg_stats, hc, map_index_of_find hM, with_pg_stat_self, hlt, hM,
          ih1, ih2, hle]

/-- C5. On a stats report `preprocess_query` returns; it returns `true`
(redundant) if and only if every pair of the batch has an entry in the map
under its own id whose `reported` is at least the pair's; it returns `false`
(mutating) if and only if some pair is absent from the map or strictly newer;
in both cases the state (the map with its aggregate, and the pending
incremental) is unchanged and nothing is sent; an empty batch is redundant. -/
theorem C5_noop_detection (s : PGMonitor) (stats : MPGStats) :
    (preprocess_query s (.pgstats stats)).state = s ∧
      (preprocess_query s (.pgstats stats)).sent = [] ∧
      ((preprocess_query s (.pgstats stats)).outcome = .returned true ↔
        ∀ p ∈ stats.pg_stat, ∃ v, map_find s.pg_map.pg_stat p.1 = some v ∧
          p.2.reported ≤ v.reported) ∧
      ((preprocess_query s (.pgstats stats)).outcome = .returned false ↔
        ∃ p ∈ stats.pg_stat, map_find s.pg_map.pg_stat p.1 = none ∨
          ∃ v, map_find s.pg_map.pg_stat p.1 = some v ∧ v.reported < p.2.reported) ∧
      (preprocess_query s (.pgstats { pg_stat := [] })).outcome = .returned true := by
  obtain ⟨h1, h2⟩ := preprocess_pg_stats_spec stats.pg_stat s
  refine ⟨by simp [preprocess_query, h1], by simp [preprocess_query], ?_, ?_, ?_⟩
  · simp [preprocess_query, h2]
  · have h3 : (preprocess_pg_stats s stats.pg_stat).2 = false ↔
        ¬ ∀ p ∈ stats.pg_stat, ∃ v, map_find s.pg_map.pg_stat p.1 = some v ∧
          p.2.reported ≤ v.reported := by
      rw [← h2]; simp
    simp only [preprocess_query, Outcome.returned.injEq, h3]
    push_neg
    constructor
    · rintro ⟨p, hp, hn⟩
      refine ⟨p, hp, ?_⟩
      cases hM : map_find s.pg_map.pg_stat p.1 with
      | none => left; rfl
      | some v => right; exact ⟨v, rfl, hn v hM⟩
    · rintro ⟨p, hp, hn⟩
      refine ⟨p, hp, ?_⟩
      intro v hv
      rcases hn with hn | ⟨w, hw, hlt⟩
      · rw [hn] at hv; cases hv
      · rw [hw] at hv; cases hv; exact hlt
  · simp [preprocess_query, preprocess_pg_stats]

/-! ## The catch-up with the log -/

theorem apply_update_version (m : PGMap) (p : pg_t × pg_stat_t) :
    (apply_update m p).version = m.version := by
  unfold apply_update
  by_cases h : map_count m.pg_stat p.1 ≠ 0
  · simp [h, stat_add, stat_sub, PGMap.with_pg_stat]
  · simp [h, stat_add, PGMap.with_pg_stat]

theorem foldl_apply_update_version (us : StatMap) :
    ∀ m : PGMap, (us.foldl apply_update m).version = m.version := by
  induction us with
  | nil => intro m; rfl
  | cons p rest ih =>
    intro m
    rw [List.foldl_cons, ih, apply_update_version]

theorem apply_incremental_version (m : PGMap) (inc : Incremental) :
    (apply_incremental m inc).version = m.version + 1 := by
  unfold apply_incremental
  rw [foldl_apply_update_version]

/-- What the loop over the incrementals does: it reads the versions above the
version of the map it starts from, in order, and its map is the replay of the
entries it could read. -/
theorem walk_incrementals_spec {B : Type} (c : Codec B) (paxos : Paxos B) (paxosv : Nat) :
    ∀ (fuel : Nat) (m : PGMap) (tr : List Event),
      ∃ n : Nat, n ≤ fuel ∧
        (∀ i, i < n → ∃ bl, paxos.read (m.version + 1 + i) = some bl) ∧
        (n = 0 ∨ m.version + n ≤ paxosv) ∧
        (walk_incrementals c paxos paxosv fuel m tr).2.1 = replay c paxos n m ∧
        (walk_incrementals c paxos paxosv fuel m tr).2.1.version = m.version + n ∧
        (((walk_incrementals c paxos paxosv fuel m tr).1 = WalkExit.caught_up ∧
            paxosv ≤ m.version + n ∧
            (walk_incrementals c paxos paxosv fuel m tr).2.2 =
              tr ++ (List.range' (m.version + 1) n).map Event.paxos_read) ∨
          ((walk_incrementals c paxos paxosv fuel m tr).1 = WalkExit.read_failed ∧
            m.version + n < paxosv ∧ paxos.read (m.version + n + 1) = none ∧
            (walk_incrementals c paxos paxosv fuel m tr).2.2 =
              tr ++ (List.range' (m.version + 1) (n + 1)).map Event.paxos_read) ∨
          ((walk_incrementals c paxos paxosv fuel m tr).1 = WalkExit.out_of_fuel ∧
            n = fuel ∧ m.version + n < paxosv)) := by
  intro fuel
  induction fuel with
  | zero =>
    intro m tr
    refine ⟨0, Nat.le_refl _, fun i hi => absurd hi (Nat.not_lt_zero _), Or.inl rfl, ?_, ?_, ?_⟩
    · by_cases h : paxosv > m.version <;> simp [walk_incrementals, h, replay]
    · by_cases h : paxosv > m.version <;> simp [walk_incrementals, h]
    · by_cases h : paxosv > m.version
      · right; right
        simp [walk_incrementals, h]
      · left
        simp [walk_incrementals, h]
        omega
  | succ fuel ih =>
    intro m tr
    by_cases h : paxosv > m.version
    · cases hr : paxos.read (m.version + 1) with
      | none =>
        refine ⟨0, Nat.zero_le _, fun i hi => absurd hi (Nat.not_lt_zero _), Or.inl rfl,
          ?_, ?_, ?_⟩
        · simp [walk_incrementals, h, hr, replay]
        · simp [walk_incrementals, h, hr]
        · right; left
          simp [walk_incrementals, h, hr]
      | some bl =>
        obtain ⟨n, hn, hreads, hbound, hmap, hver, hexit⟩ :=
          ih (apply_incremental m (c.decode_inc bl)) (tr ++ [Event.paxos_read (m.version + 1)])
        have hv : (apply_incremental m (c.decode_inc bl)).version = m.version + 1 :=
          apply_incremental_version _ _
        have hw : walk_incrementals c paxos paxosv (fuel + 1) m tr =
            walk_incrementals c paxos paxosv fuel (apply_incremental m (c.decode_inc bl))
              (tr ++ [Event.paxos_read (m.version + 1)]) := by
          simp [walk_incrementals, h, hr]
        rw [hw]
        rw [hv] at hreads hbound hver hexit
        refine ⟨n + 1, Nat.succ_le_succ hn, ?_, ?_, ?_, ?_, ?_⟩
        · intro i hi
          cases i with
          | zero => exact ⟨bl, hr⟩
          | succ j =>
            obtain ⟨b, hb⟩ := hreads j (Nat.lt_of_succ_lt_succ hi)
            refine ⟨b, ?_⟩
            rw [← hb]
            congr 1
            omega
        · right
          rcases hbound with h0 | hb
          · subst h0; omega
          · omega
        · rw [hmap]
          simp [replay, hr]
        · rw [hver]; omega
        · have htr : ∀ k : Nat,
              tr ++ [Event.paxos_read (m.version + 1)] ++
                  (List.range' (m.version + 1 + 1) k).map Event.paxos_read =
                tr ++ (List.range' (m.version + 1) (k + 1)).map Event.paxos_read := by
            intro k
            simp [List.range'_succ]
          rcases hexit with ⟨e, hb, ht⟩ | ⟨e, hb, hnone, ht⟩ | ⟨e, hb, hlt⟩
          · left
            refine ⟨e, by omega, ?_⟩
            rw [ht, htr]
          · right; left
            refine ⟨e, by omega, ?_, ?_⟩
            · rw [← hnone]; congr 1; omega
            · rw [ht, htr]
          · right; right
            exact ⟨e, by omega, by omega⟩
    · refine ⟨0, Nat.zero_le _, fun i hi => absurd hi (Nat.not_lt_zero _), Or.inl rfl,
        ?_, ?_, ?_⟩
      · simp [walk_incrementals, h, replay]
      · simp [walk_incrementals, h]
      · left
        simp [walk_incrementals, h]
        omega

theorem update_from_paxos_same {B : Type} [Inhabited B] (c : Codec B) (paxos : Paxos B)
    (store : MonitorStore B) (pg_map : PGMap) (h : paxos.get_version = pg_map.version) :
    update_from_paxos c paxos store pg_map =
      { outcome := some (.returned true), pg_map := pg_map, store := store, trace := [] } := by
  simp [update_from_paxos, h]

theorem update_from_paxos_behind {B : Type} [Inhabited B] (c : Codec B) (paxos : Paxos B)
    (store : MonitorStore B) (pg_map : PGMap) (h : paxos.get_version < pg_map.version) :
    update_from_paxos c paxos store pg_map =
      { outcome := some .assert_failed, pg_map := pg_map, store := store, trace := [] } := by
  have h1 : ¬ paxos.get_version = pg_map.version := by omega
  have h2 : ¬ pg_map.version ≤ paxos.get_version := by omega
  simp [update_from_paxos, h1, h2]

/-- What `update_from_paxos` does when the log is ahead of the map: after the
start-up step it reads the versions above the version of the map in order;
it returns `true` with the map caught up and stored, or `false` at the first
read that fails, with the store as it was. -/
theorem update_from_paxos_ahead {B : Type} [Inhabited B] (c : Codec B) (paxos : Paxos B)
    (store : MonitorStore B) (pg_map : PGMap) (h : pg_map.version < paxos.get_version) :
    ∃ n : Nat,
      (∀ i, i < n → ∃ bl,
        paxos.read ((load_latest c paxos.get_version store pg_map).1.version + 1 + i)
          = some bl) ∧
      (n = 0 ∨ (load_latest c paxos.get_version store pg_map).1.version + n
        ≤ paxos.get_version) ∧
      (update_from_paxos c paxos store pg_map).pg_map =
        replay c paxos n (load_latest c paxos.get_version store pg_map).1 ∧
      (update_from_paxos c paxos store pg_map).pg_map.version =
        (load_latest c paxos.get_version store pg_map).1.version + n ∧
      (((update_from_paxos c paxos store pg_map).outcome = some (.returned true) ∧
          paxos.get_version ≤ (load_latest c paxos.get_version store pg_map).1.version + n ∧
          (update_from_paxos c paxos store pg_map).trace =
            (load_latest c paxos.get_version store pg_map).2 ++
              (List.range' ((load_latest c paxos.get_version store pg_map).1.version + 1) n).map
                Event.paxos_read ++ [Event.put_latest] ∧
          (update_from_paxos c paxos store pg_map).store =
            put_bl_ss store (c.encode_map (update_from_paxos c paxos store pg_map).pg_map)
              pgmap_dir latest_name) ∨
        ((update_from_paxos c paxos store pg_map).outcome = some (.returned false) ∧
          (load_latest c paxos.get_version store pg_map).1.version + n < paxos.get_version ∧
          paxos.read ((load_latest c paxos.get_version store pg_map).1.version + n + 1)
            = none ∧
          (update_from_paxos c paxos store pg_map).trace =
            (load_latest c paxos.get_version store pg_map).2 ++
              (List.range' ((load_latest c paxos.get_version store pg_map).1.version + 1)
                (n + 1)).map Event.paxos_read ∧
          (update_from_paxos c paxos store pg_map).store = store)) := by
  have h1 : ¬ paxos.get_version = pg_map.version := by omega
  have h2 : pg_map.version ≤ paxos.get_version := by omega
  generalize hs : load_latest c paxos.get_version store pg_map = start
  obtain ⟨n, hn, hreads, hbound, hmap, hver, hexit⟩ :=
    walk_incrementals_spec c paxos paxos.get_version
      (paxos.get_version - start.1.version) start.1 start.2
  have hu : update_from_paxos c paxos store pg_map =
      match walk_incrementals c paxos paxos.get_version
          (paxos.get_version - start.1.version) start.1 start.2 with
      | (.caught_up, m, tr) =>
        { outcome := some (.returned true), pg_map := m,
          store := put_bl_ss store (c.encode_map m) pgmap_dir latest_name,
          trace := tr ++ [Event.put_latest] }
      | (.read_failed, m, tr) =>
        { outcome := some (.returned false), pg_map := m, store := store, trace := tr }
      | (.out_of_fuel, m, tr) =>
        { outcome := none, pg_map := m, store := store, trace := tr } := by
    simp [update_from_paxos, h1, h2, hs]
  rw [hu]
  rcases hw : walk_incrementals c paxos paxos.get_version
      (paxos.get_version - start.1.version) start.1 start.2 with ⟨e, m, tr⟩
  rw [hw] at hmap hver hexit
  simp only at hmap hver hexit
  refine ⟨n, hreads, hbound, ?_⟩
  rcases hexit with ⟨he, hb, ht⟩ | ⟨he, hb, hnone, ht⟩ | ⟨he, hb, hlt⟩
  · subst he
    exact ⟨hmap, hver, Or.inl ⟨rfl, hb, by rw [ht], rfl⟩⟩
  · subst he
    exact ⟨hmap, hver, Or.inr ⟨rfl, hb, hnone, ht, rfl⟩⟩
  · exfalso
    omega

theorem reads_of_append (a b : List Event) : reads_of (a ++ b) = reads_of a ++ reads_of b := by
  induction a with
  | nil => rfl
  | cons e rest ih => cases e <;> simp [reads_of, ih]

theorem reads_of_map (l : List Nat) : reads_of (l.map Event.paxos_read) = l := by
  induction l with
  | nil => rfl
  | cons v rest ih => simp [reads_of, ih]

theorem load_latest_loaded {B : Type} [Inhabited B] (c : Codec B) (paxosv : Nat)
    (store : MonitorStore B) (pg_map : PGMap) (bl : B)
    (h0 : pg_map.version = 0) (h1 : paxosv > 1) (hs : store pgmap_dir latest_name = some bl) :
    load_latest c paxosv store pg_map = (c.decode_map bl, [Event.load_latest]) := by
  simp [load_latest, h0, h1, hs, exists_bl_ss, get_bl_ss]

theorem load_latest_skipped {B : Type} [Inhabited B] (c : Codec B) (paxosv : Nat)
    (store : MonitorStore B) (pg_map : PGMap)
    (h : ¬ (pg_map.version = 0 ∧ paxosv > 1 ∧ (store pgmap_dir latest_name).isSome = true)) :
    load_latest c paxosv store pg_map = (pg_map, []) := by
  unfold load_latest exists_bl_ss
  rw [if_neg h]

theorem reads_of_load_latest {B : Type} [Inhabited B] (c : Codec B) (paxosv : Nat)
    (store : MonitorStore B) (pg_map : PGMap) :
    reads_of (load_latest c paxosv store pg_map).2 = [] := by
  unfold load_latest
  split <;> rfl

theorem paxos_read_not_mem_load_latest {B : Type} [Inhabited B] (c : Codec B) (paxosv : Nat)
    (store : MonitorStore B) (pg_map : PGMap) (v : Nat) :
    Event.paxos_read v ∉ (load_latest c paxosv store pg_map).2 := by
  unfold load_latest
  split <;> simp

theorem put_latest_not_mem_load_latest {B : Type} [Inhabited B] (c : Codec B) (paxosv : Nat)
    (store : MonitorStore B) (pg_map : PGMap) :
    Event.put_latest ∉ (load_latest c paxosv store pg_map).2 := by
  unfold load_latest
  split <;> simp

/-! ## C6: the version after a successful sync -/

/-- C6, counterexample. The map is at version 0, the log at version 2, and
the store holds a full map at version 5. The call loads the stored map, finds
nothing to walk through and returns `true` with the map at version 5, not at
the version of the log. -/
theorem C6_counterexample :
    (update_from_paxos blob_codec (full_log 2) (store_at 5) PGMap_new).outcome
        = some (.returned true) ∧
      (update_from_paxos blob_codec (full_log 2) (store_at 5) PGMap_new).pg_map.version = 5 ∧
      (full_log 2).get_version = 2 := by
  decide

/-- C6, amended. For every map, log and store such that the stored full map,
if there is one, is at a version not above the version of the log:
`update_from_paxos` ends (its loop ends within its bound), and whenever it
returns `true` the version of the map equals the version of the log. -/
theorem C6_sync_postcondition {B : Type} [Inhabited B] (c : Codec B) (paxos : Paxos B)
    (store : MonitorStore B) (pg_map : PGMap)
    (hstore : ∀ bl, store pgmap_dir latest_name = some bl →
      (c.decode_map bl).version ≤ paxos.get_version) :
    (update_from_paxos c paxos store pg_map).outcome ≠ none ∧
      ((update_from_paxos c paxos store pg_map).outcome = some (.returned true) →
        (update_from_paxos c paxos store pg_map).pg_map.version = paxos.get_version) := by
  rcases Nat.lt_trichotomy paxos.get_version pg_map.version with hlt | heq | hgt
  · rw [update_from_paxos_behind c paxos store pg_map hlt]
    simp
  · rw [update_from_paxos_same c paxos store pg_map heq]
    simp [heq]
  · have hstart : (load_latest c paxos.get_version store pg_map).1.version
        ≤ paxos.get_version := by
      by_cases hc : pg_map.version = 0 ∧ paxos.get_version > 1 ∧
          (store pgmap_dir latest_name).isSome = true
      · obtain ⟨h0, h1, h2⟩ := hc
        obtain ⟨bl, hbl⟩ := Option.isSome_iff_exists.mp h2
        rw [load_latest_loaded c _ store pg_map bl h0 h1 hbl]
        exact hstore bl hbl
      · rw [load_latest_skipped c _ store pg_map hc]
        exact Nat.le_of_lt hgt
    obtain ⟨n, _, hbound, _, hver, hexit⟩ := update_from_paxos_ahead c paxos store pg_map hgt
    rcases hexit with ⟨ho, hb, _, _⟩ | ⟨ho, _, _, _, _⟩
    · refine ⟨by rw [ho]; simp, fun _ => ?_⟩
      rw [hver]
      rcases hbound with h0 | hb2
      · subst h0; omega
      · omega
    · refine ⟨by rw [ho]; simp, fun h => ?_⟩
      rw [ho] at h
      cases h

/-- C6, witness. The map is at version 0, the log at version 4 with all its
entries readable, and the store holds a full map at version 2: the call
returns `true` and the map is at version 4. -/
theorem C6_sync_postcondition_witness :
    (update_from_paxos blob_codec (full_log 4) (store_at 2) PGMap_new).outcome
        = some (.returned true) ∧
      (update_from_paxos blob_codec (full_log 4) (store_at 2) PGMap_new).pg_map.version
        = (full_log 4).get_version :=
  ⟨by decide,
    (C6_sync_postcondition blob_codec (full_log 4) (store_at 2) PGMap_new
      (by
        intro bl hbl
        have : bl = Blob.of_map { PGMap_new with version := 2 } := by
          have h : store_at 2 pgmap_dir latest_name
              = some (Blob.of_map { PGMap_new with version := 2 }) := by decide
          rw [h] at hbl
          exact (Option.some.inj hbl).symm
        subst this
        decide)).2 (by decide)⟩

/-! ## C7: the order of the reads, and a read that fails -/

theorem replay_stuck {B : Type} (c : Codec B) (paxos : Paxos B) :
    ∀ (n : Nat) (m : PGMap),
      (∀ i, i < n → ∃ bl, paxos.read (m.version + 1 + i) = some bl) →
      paxos.read (m.version + n + 1) = none →
      replay c paxos (n + 1) m = replay c paxos n m := by
  intro n
  induction n with
  | zero =>
    intro m _ hnone
    simp only [Nat.add_zero] at hnone
    simp [replay, hnone]
  | succ n ih =>
    intro m hreads hnone
    obtain ⟨bl, hbl⟩ := hreads 0 (Nat.succ_pos _)
    simp only [Nat.add_zero] at hbl
    have hv := apply_incremental_version m (c.decode_inc bl)
    have h1 : replay c paxos (n + 1 + 1) m
        = replay c paxos (n + 1) (apply_incremental m (c.decode_inc bl)) := by
      rw [replay, hbl]
    have h2 : replay c paxos (n + 1) m
        = replay c paxos n (apply_incremental m (c.decode_inc bl)) := by
      rw [replay, hbl]
    rw [h1, h2]
    apply ih
    · intro i hi
      obtain ⟨b, hb⟩ := hreads (i + 1) (Nat.succ_lt_succ hi)
      refine ⟨b, ?_⟩
      rw [← hb, hv]
      congr 1
      omega
    · rw [← hnone, hv]
      congr 1
      omega

/-- C7. During one call of `update_from_paxos` the versions read from the log
are v0+1, v0+2, ... in increasing order without gap or repeat, where v0 is the
version of the map after the start-up step, and the map on return is the map
after the start-up step with exactly the entries read applied in that order.
If the read of version v+1 is made and fails, the call returns `false`, every
version from v0+1 to v was read, the map is the one obtained by applying the
entries up to v and is at version v, no version after v+1 is read, the store
is unchanged and no full map is written. -/
theorem C7_strict_version_order {B : Type} [Inhabited B] (c : Codec B) (paxos : Paxos B)
    (store : MonitorStore B) (pg_map : PGMap) :
    (∃ n : Nat,
        reads_of (update_from_paxos c paxos store pg_map).trace =
          List.range' ((load_latest c paxos.get_version store pg_map).1.version + 1) n ∧
        (update_from_paxos c paxos store pg_map).pg_map =
          replay c paxos n (load_latest c paxos.get_version store pg_map).1) ∧
      ∀ v : Nat,
        Event.paxos_read (v + 1) ∈ (update_from_paxos c paxos store pg_map).trace →
        paxos.read (v + 1) = none →
        (update_from_paxos c paxos store pg_map).outcome = some (.returned false) ∧
          (∀ u, (load_latest c paxos.get_version store pg_map).1.version < u → u ≤ v →
            ∃ bl, paxos.read u = some bl) ∧
          (update_from_paxos c paxos store pg_map).pg_map =
            replay c paxos (v - (load_latest c paxos.get_version store pg_map).1.version)
              (load_latest c paxos.get_version store pg_map).1 ∧
          (update_from_paxos c paxos store pg_map).pg_map.version = v ∧
          (∀ u, Event.paxos_read u ∈ (update_from_paxos c paxos store pg_map).trace →
            u ≤ v + 1) ∧
          (update_from_paxos c paxos store pg_map).store = store ∧
          Event.put_latest ∉ (update_from_paxos c paxos store pg_map).trace := by
  rcases Nat.lt_trichotomy paxos.get_version pg_map.version with hlt | heq | hgt
  · have hskip : load_latest c paxos.get_version store pg_map = (pg_map, []) :=
      load_latest_skipped c _ store pg_map (by omega)
    rw [update_from_paxos_behind c paxos store pg_map hlt, hskip]
    exact ⟨⟨0, rfl, rfl⟩, fun v hv => by simp at hv⟩
  · have hskip : load_latest c paxos.get_version store pg_map = (pg_map, []) :=
      load_latest_skipped c _ store pg_map (by omega)
    rw [update_from_paxos_same c paxos store pg_map heq, hskip]
    exact ⟨⟨0, rfl, rfl⟩, fun v hv => by simp at hv⟩
  · obtain ⟨n, hreads, _, hmap, hver, hexit⟩ :=
      update_from_paxos_ahead c paxos store pg_map hgt
    rcases hexit with ⟨_, _, htr, _⟩ | ⟨ho, _, hnone, htr, hst⟩
    · refine ⟨⟨n, ?_, hmap⟩, ?_⟩
      · rw [htr]
        simp [reads_of_append, reads_of_map, reads_of_load_latest, reads_of]
      · intro v hv hfail
        exfalso
        rw [htr] at hv
        simp only [List.mem_append, List.mem_map, List.mem_range', List.mem_singleton] at hv
        rcases hv with (hv | ⟨u, ⟨i, hi, hu⟩, he⟩) | hv
        · exact paxos_read_not_mem_load_latest c _ store pg_map _ hv
        · cases he
          obtain ⟨bl, hbl⟩ := hreads i hi
          have : (load_latest c paxos.get_version store pg_map).1.version + 1 + i = v + 1 := by
            omega
          rw [this, hfail] at hbl
          cases hbl
        · cases hv
    · refine ⟨⟨n + 1, ?_, ?_⟩, ?_⟩
      · rw [htr]
        simp [reads_of_append, reads_of_map, reads_of_load_latest]
      · rw [hmap, replay_stuck c paxos n _ hreads hnone]
      · intro v hv hfail
        have hmem : ∀ u, Event.paxos_read u ∈ (update_from_paxos c paxos store pg_map).trace →
            ∃ i, i < n + 1 ∧
              u = (load_latest c paxos.get_version store pg_map).1.version + 1 + i := by
          intro u hu
          rw [htr] at hu
          simp only [List.mem_append, List.mem_map, List.mem_range'] at hu
          rcases hu with hu | ⟨w, ⟨i, hi, hw⟩, he⟩
          · exact absurd hu (paxos_read_not_mem_load_latest c _ store pg_map _)
          · cases he
            exact ⟨i, hi, by omega⟩
        obtain ⟨i, hi, hvi⟩ := hmem (v + 1) hv
        have hin : i = n := by
          by_contra hne
          have hlt : i < n := by omega
          obtain ⟨bl, hbl⟩ := hreads i hlt
          rw [← hvi, hfail] at hbl
          cases hbl
        subst hin
        have hv0 : v = (load_latest c paxos.get_version store pg_map).1.version + i := by omega
        refine ⟨ho, ?_, ?_, ?_, ?_, hst, ?_⟩
        · intro u hu1 hu2
          obtain ⟨bl, hbl⟩ :=
            hreads (u - ((load_latest c paxos.get_version store pg_map).1.version + 1))
              (by omega)
          refine ⟨bl, ?_⟩
          rw [← hbl]
          congr 1
          omega
        · rw [hmap]
          congr 1
          omega
        · rw [hver]; omega
        · intro u hu
          obtain ⟨j, hj, huj⟩ := hmem u hu
          omega
        · rw [htr]
          simp [put_latest_not_mem_load_latest]

/-- C7, witness. The map is at version 0, the log at version 5, only the
entries 1 and 2 can be read, the store holds nothing: the read of version 3
is made and fails, the call returns `false` and the map is at version 2. -/
theorem C7_strict_version_order_witness :
    (update_from_paxos blob_codec (short_log 5 2) empty_store PGMap_new).outcome
        = some (.returned false) ∧
      (update_from_paxos blob_codec (short_log 5 2) empty_store PGMap_new).pg_map.version = 2 ∧
      reads_of (update_from_paxos blob_codec (short_log 5 2) empty_store PGMap_new).trace
        = [1, 2, 3] :=
  have h := (C7_strict_version_order blob_codec (short_log 5 2) empty_store PGMap_new).2 2
    (by decide) (by decide)
  ⟨h.1, h.2.2.2.1, by decide⟩

/-! ## C8: the stored full map -/

/-- C8, counterexample. The map and the log are both at version 3 and the
store holds nothing: the call returns `true` at once and the store still
holds no full map. -/
theorem C8_counterexample :
    (update_from_paxos blob_codec (full_log 3) empty_store p1_at_5.pg_map).outcome
        = some (.returned true) ∧
      (update_from_paxos blob_codec (full_log 3) empty_store p1_at_5.pg_map).store
        pgmap_dir latest_name = none := by
  decide

/-- C8, amended. For every call of `update_from_paxos` made with the version of
the log different from the version of the map and that returns `true`: on
return the store holds, under "pgmap" / "latest", the encoding of the full
map as it is on return, the write is the last thing the call does, and no
other entry of the store is changed. -/
theorem C8_checkpoint_after_catch_up {B : Type} [Inhabited B] (c : Codec B) (paxos : Paxos B)
    (store : MonitorStore B) (pg_map : PGMap)
    (hne : paxos.get_version ≠ pg_map.version)
    (hret : (update_from_paxos c paxos store pg_map).outcome = some (.returned true)) :
    (update_from_paxos c paxos store pg_map).store pgmap_dir latest_name =
        some (c.encode_map (update_from_paxos c paxos store pg_map).pg_map) ∧
      (∃ tr, (update_from_paxos c paxos store pg_map).trace = tr ++ [Event.put_latest] ∧
        Event.put_latest ∉ tr) ∧
      (∀ a b, ¬ (a = pgmap_dir ∧ b = latest_name) →
        (update_from_paxos c paxos store pg_map).store a b = store a b) := by
  rcases Nat.lt_trichotomy paxos.get_version pg_map.version with hlt | heq | hgt
  · rw [update_from_paxos_behind c paxos store pg_map hlt] at hret
    simp at hret
  · exact absurd heq hne
  · obtain ⟨n, _, _, _, _, hexit⟩ := update_from_paxos_ahead c paxos store pg_map hgt
    rcases hexit with ⟨_, _, htr, hst⟩ | ⟨ho, _, _, _, _⟩
    · refine ⟨?_, ⟨_, htr, ?_⟩, ?_⟩
      · rw [hst]; simp [put_bl_ss]
      · simp [put_latest_not_mem_load_latest]
      · intro a b hab
        rw [hst]
        simp only [put_bl_ss, if_neg hab]
    · rw [ho] at hret
      simp at hret

/-- C8, witness. The map is at version 0, the log at version 2 with both
entries readable, the store holds nothing: the call returns `true` and the
store holds the encoding of the map on return. -/
theorem C8_checkpoint_after_catch_up_witness :
    (update_from_paxos blob_codec (full_log 2) empty_store PGMap_new).store
        pgmap_dir latest_name =
      some (blob_codec.encode_map
        (update_from_paxos blob_codec (full_log 2) empty_store PGMap_new).pg_map) :=
  (C8_checkpoint_after_catch_up blob_codec (full_log 2) empty_store PGMap_new
    (by decide) (by decide)).1

/-! ## C9: the start-up from the stored full map -/

theorem load_latest_trace {B : Type} [Inhabited B] (c : Codec B) (paxosv : Nat)
    (store : MonitorStore B) (pg_map : PGMap) :
    (load_latest c paxosv store pg_map).2 =
      if pg_map.version = 0 ∧ paxosv > 1 ∧ (store pgmap_dir latest_name).isSome = true
      then [Event.load_latest] else [] := by
  unfold load_latest exists_bl_ss
  split <;> rfl

/-- C9. A call of `update_from_paxos` loads and decodes the stored full map
exactly when the map is at version 0, the version of the log is above 1 and
the store holds a full map; the load, if any, is the first event of the call,
it is followed only by reads of the versions v0+1, v0+2, ... in order, where
v0 is the version of the map after the start-up step (the version of the
loaded map when one is loaded), and then at most by the write of the full map.
So with the map at version 0, a stored full map at version cv not above the
version of the log, and a log version above 1 (say 50), a call that returns
`true` makes exactly (log version - cv) reads and ends at the version of the
log. -/
theorem C9_bulk_recovery {B : Type} [Inhabited B] (c : Codec B) (paxos : Paxos B)
    (store : MonitorStore B) (pg_map : PGMap) :
    (Event.load_latest ∈ (update_from_paxos c paxos store pg_map).trace ↔
        (pg_map.version = 0 ∧ paxos.get_version > 1 ∧
          (store pgmap_dir latest_name).isSome = true)) ∧
      (∃ (n : Nat) (tail : List Event),
        (update_from_paxos c paxos store pg_map).trace =
          (if pg_map.version = 0 ∧ paxos.get_version > 1 ∧
              (store pgmap_dir latest_name).isSome = true
            then [Event.load_latest] else []) ++
          (List.range' ((load_latest c paxos.get_version store pg_map).1.version + 1) n).map
            Event.paxos_read ++ tail ∧
        (tail = [] ∨ tail = [Event.put_latest])) ∧
      (∀ bl, pg_map.version = 0 → paxos.get_version > 1 →
        store pgmap_dir latest_name = some bl →
        (load_latest c paxos.get_version store pg_map).1 = c.decode_map bl ∧
        ((c.decode_map bl).version ≤ paxos.get_version →
          (update_from_paxos c paxos store pg_map).outcome = some (.returned true) →
          (reads_of (update_from_paxos c paxos store pg_map).trace).length =
              paxos.get_version - (c.decode_map bl).version ∧
            (update_from_paxos c paxos store pg_map).pg_map.version = paxos.get_version)) := by
  have hshape : ∃ (n : Nat) (tail : List Event),
      (update_from_paxos c paxos store pg_map).trace =
        (if pg_map.version = 0 ∧ paxos.get_version > 1 ∧
            (store pgmap_dir latest_name).isSome = true
          then [Event.load_latest] else []) ++
        (List.range' ((load_latest c paxos.get_version store pg_map).1.version + 1) n).map
          Event.paxos_read ++ tail ∧
      (tail = [] ∨ tail = [Event.put_latest]) := by
    rcases Nat.lt_trichotomy paxos.get_version pg_map.version with hlt | heq | hgt
    · have hc : ¬ (pg_map.version = 0 ∧ paxos.get_version > 1 ∧
          (store pgmap_dir latest_name).isSome = true) := by omega
      rw [update_from_paxos_behind c paxos store pg_map hlt, if_neg hc]
      exact ⟨0, [], by simp, Or.inl rfl⟩
    · have hc : ¬ (pg_map.version = 0 ∧ paxos.get_version > 1 ∧
          (store pgmap_dir latest_name).isSome = true) := by omega
      rw [update_from_paxos_same c paxos store pg_map heq, if_neg hc]
      exact ⟨0, [], by simp, Or.inl rfl⟩
    · obtain ⟨n, _, _, _, _, hexit⟩ := update_from_paxos_ahead c paxos store pg_map hgt
      rw [← load_latest_trace]
      rcases hexit with ⟨_, _, htr, _⟩ | ⟨_, _, _, htr, _⟩
      · exact ⟨n, [Event.put_latest], htr, Or.inr rfl⟩
      · exact ⟨n + 1, [], by rw [htr]; simp, Or.inl rfl⟩
  refine ⟨?_, hshape, ?_⟩
  · obtain ⟨n, tail, htr, htail⟩ := hshape
    rw [htr]
    by_cases hc : pg_map.version = 0 ∧ paxos.get_version > 1 ∧
        (store pgmap_dir latest_name).isSome = true
    · simp [hc]
    · rcases htail with ht | ht <;> simp [hc, ht]
  · intro bl h0 h1 hbl
    have hload := load_latest_loaded c paxos.get_version store pg_map bl h0 h1 hbl
    refine ⟨by rw [hload], fun hle hret => ?_⟩
    have hgt : pg_map.version < paxos.get_version := by omega
    obtain ⟨n, _, hbound, _, hver, hexit⟩ := update_from_paxos_ahead c paxos store pg_map hgt
    rw [hload] at hbound hver hexit
    simp only at hbound hver hexit
    rcases hexit with ⟨_, hb, htr, _⟩ | ⟨ho, _, _, _, _⟩
    · have hn : (c.decode_map bl).version + n = paxos.get_version := by
        rcases hbound with h | h
        · subst h; omega
        · omega
      constructor
      · rw [htr]
        simp [reads_of_append, reads_of_map, reads_of]
        omega
      · rw [hver, hn]
    · rw [ho] at hret
      cases hret

/-- C9, witness. The map is at version 0, the log at version 50 with all its
entries readable, and the store holds a full map at version 47: the call
returns `true`, makes exactly 3 reads and ends at version 50. -/
theorem C9_bulk_recovery_witness :
    (reads_of (update_from_paxos blob_codec (full_log 50) (store_at 47) PGMap_new).trace).length
        = 50 - 47 ∧
      (update_from_paxos blob_codec (full_log 50) (store_at 47) PGMap_new).pg_map.version = 50 :=
  ((C9_bulk_recovery blob_codec (full_log 50) (store_at 47) PGMap_new).2.2
    (Blob.of_map { PGMap_new with version := 47 }) (by decide) (by decide) (by decide)).2
    (by decide) (by decide)

/-! ## C10: a new round -/

/-- C10. For every state, `create_pending` replaces the pending incremental by
a fresh one whose updates are empty and whose version is the version of the
map plus 1, whatever was staged before, and leaves the map (version, stats
and aggregate) unchanged. -/
theorem C10_create_pending (s : PGMonitor) :
    (create_pending s).pending_inc =
        { version := s.pg_map.version + 1, pg_stat_updates := [] } ∧
      (create_pending s).pg_map = s.pg_map := by
  constructor <;> rfl

/-! ## C11: the encoding of the pending incremental -/

/-- C11. The call `encode_pending` succeeds if and only if the monitor is the
leader and the version of the pending incremental is the version of the log
plus 1; when it succeeds, the bytes it writes are exactly the encoding of the
current pending incremental; in every other case an `assert` fails and no
bytes are produced; in both cases the map and the pending incremental are
unchanged. -/
theorem C11_encode_pending {B : Type} (c : Codec B) (is_leader : Bool) (paxos : Paxos B)
    (s : PGMonitor) :
    ((∃ b, (encode_pending c is_leader paxos s).2 = .done b) ↔
        (is_leader = true ∧ s.pending_inc.version = paxos.get_version + 1)) ∧
      (∀ b, (encode_pending c is_leader paxos s).2 = .done b → b = c.encode_inc s.pending_inc) ∧
      (¬ (is_leader = true ∧ s.pending_inc.version = paxos.get_version + 1) →
        (encode_pending c is_leader paxos s).2 = .assert_failed) ∧
      (encode_pending c is_leader paxos s).1 = s := by
  by_cases hl : is_leader = true
  · by_cases hv : paxos.get_version + 1 = s.pending_inc.version
    · have hv2 : s.pending_inc.version = paxos.get_version + 1 := hv.symm
      simp [encode_pending, hl, hv]
    · have hv2 : ¬ s.pending_inc.version = paxos.get_version + 1 := fun h => hv h.symm
      simp [encode_pending, hl, hv, hv2]
  · simp [encode_pending, hl]

/-- C11, witness. The leader, with the log at version 3 and the pending
incremental at version 4: the call succeeds with the encoding of the pending
incremental. On a monitor that is not the leader the `assert` fails. -/
theorem C11_encode_pending_witness :
    (encode_pending blob_codec true (full_log 3) p1_at_5).2
        = .done (Blob.of_inc p1_at_5.pending_inc) ∧
      (encode_pending blob_codec false (full_log 3) p1_at_5).2 = .assert_failed :=
  ⟨by
      obtain ⟨b, hb⟩ := (C11_encode_pending blob_codec true (full_log 3) p1_at_5).1.2
        (by decide)
      rw [hb, (C11_encode_pending blob_codec true (full_log 3) p1_at_5).2.1 b hb]
      rfl,
    (C11_encode_pending blob_codec false (full_log 3) p1_at_5).2.2.1 (by decide)⟩

/-! ## Staged updates and the map -/

theorem handle_pg_stats_iter_mirrored (s : PGMonitor) (p : pg_t × pg_stat_t)
    (h : staged_mirrored s) : staged_mirrored (handle_pg_stats_iter s p).1 := by
  rcases handle_pg_stats_iter_cases s p with ⟨_, e⟩ | ⟨_, e⟩
  · rw [e]; exact h
  · rw [e]
    intro k w hk
    by_cases hd : k = pg_t_default
    · subst hd
      simp only [map_find_assign_same] at hk ⊢
      exact hk
    · simp only [map_find_assign_other _ _ _ _ hd] at hk ⊢
      exact h k w hk

theorem handle_pg_stats_mirrored (batch : List (pg_t × pg_stat_t)) :
    ∀ s : PGMonitor, staged_mirrored s →
      staged_mirrored (batch.foldl (fun t p => (handle_pg_stats_iter t p).1) s) := by
  induction batch with
  | nil => intro s h; exact h
  | cons p rest ih =>
    intro s h
    exact ih _ (handle_pg_stats_iter_mirrored s p h)

theorem handle_all_mirrored (batches : List MPGStats) :
    ∀ s : PGMonitor, staged_mirrored s → staged_mirrored (handle_all s batches) := by
  induction batches with
  | nil => intro s h; exact h
  | cons b rest ih =>
    intro s h
    exact ih _ (handle_pg_stats_mirrored b.pg_stat s h)

theorem create_pending_mirrored (s : PGMonitor) : staged_mirrored (create_pending s) := by
  intro k w hk
  simp [create_pending, Incremental_new, map_find] at hk

/-! ## C12: a diff applied twice -/

theorem map_assign_of_find (m : StatMap) (k : pg_t) (v : pg_stat_t)
    (h : map_find m k = some v) : map_assign m k v = m := by
  induction m with
  | nil => simp [map_find] at h
  | cons e rest ih =>
    obtain ⟨k', v'⟩ := e
    by_cases hk : k' = k
    · simp [map_find, hk] at h
      simp [map_assign, hk, h]
    · simp [map_find, hk] at h
      simp [map_assign, hk, ih h]

theorem mem_keys_map_assign (m : StatMap) (k j : pg_t) (v : pg_stat_t) :
    j ∈ (map_assign m k v).map Prod.fst ↔ j = k ∨ j ∈ m.map Prod.fst := by
  induction m with
  | nil => simp [map_assign]
  | cons e rest ih =>
    obtain ⟨k', v'⟩ := e
    by_cases hk : k' = k
    · subst hk
      simp [map_assign]
    · simp only [map_assign, hk, if_false, List.map_cons, List.mem_cons, ih]
      tauto

theorem unique_keys_map_assign (m : StatMap) (k : pg_t) (v : pg_stat_t)
    (h : unique_keys m) : unique_keys (map_assign m k v) := by
  induction m with
  | nil => simp [map_assign, unique_keys]
  | cons e rest ih =>
    obtain ⟨k', v'⟩ := e
    simp only [unique_keys, List.map_cons, List.nodup_cons] at h
    by_cases hk : k' = k
    · subst hk
      simp only [map_assign, if_true, unique_keys, List.map_cons, List.nodup_cons]
      exact h
    · simp only [map_assign, hk, if_false, unique_keys, List.map_cons, List.nodup_cons]
      refine ⟨?_, ih h.2⟩
      rw [mem_keys_map_assign]
      rintro (h1 | h1)
      · exact hk h1
      · exact h.1 h1

theorem map_find_of_mem (m : StatMap) (h : unique_keys m) :
    ∀ e ∈ m, map_find m e.1 = some e.2 := by
  induction m with
  | nil => intro e he; cases he
  | cons x rest ih =>
    obtain ⟨k', v'⟩ := x
    simp only [unique_keys, List.map_cons, List.nodup_cons] at h
    intro e he
    rcases List.mem_cons.mp he with rfl | hr
    · simp [map_find]
    · have hne : ¬ k' = e.1 := by
        intro hk
        apply h.1
        rw [hk]
        exact List.mem_map_of_mem Prod.fst hr
      simp only [map_find, hne, if_false]
      exact ih h.2 e hr

theorem apply_update_eq (m : PGMap) (p : pg_t × pg_stat_t) :
    apply_update m p =
      { version := m.version
        pg_stat := map_assign m.pg_stat p.1 p.2
        total_num_blocks :=
          m.total_num_blocks - ((map_find m.pg_stat p.1).map (fun o => o.num_blocks)).getD 0
            + p.2.num_blocks
        total_usage :=
          m.total_usage - ((map_find m.pg_stat p.1).map (fun o => o.usage)).getD 0
            + p.2.usage } := by
  obtain ⟨ver, ps, tb, tu⟩ := m
  cases hM : map_find ps p.1 with
  | none => simp [apply_update, map_count, hM, PGMap.with_pg_stat, stat_add]
  | some v =>
    simp [apply_update, map_count, map_index, hM, PGMap.with_pg_stat, stat_add, stat_sub]

theorem apply_update_fixed (m : PGMap) (p : pg_t × pg_stat_t)
    (h : map_find m.pg_stat p.1 = some p.2) : apply_update m p = m := by
  rw [apply_update_eq, map_assign_of_find _ _ _ h, h]
  obtain ⟨ver, ps, tb, tu⟩ := m
  simp

theorem foldl_apply_update_fixed (us : StatMap) (m : PGMap)
    (h : ∀ e ∈ us, map_find m.pg_stat e.1 = some e.2) : us.foldl apply_update m = m := by
  induction us with
  | nil => rfl
  | cons p rest ih =>
    rw [List.foldl_cons, apply_update_fixed m p (h p (List.mem_cons_self _ _))]
    exact ih (fun e he => h e (List.mem_cons_of_mem _ he))

theorem handle_pg_stats_iter_unique (s : PGMonitor) (p : pg_t × pg_stat_t)
    (h : unique_keys s.pending_inc.pg_stat_updates) :
    unique_keys (handle_pg_stats_iter s p).1.pending_inc.pg_stat_updates := by
  rcases handle_pg_stats_iter_cases s p with ⟨_, e⟩ | ⟨_, e⟩
  · rw [e]; exact h
  · rw [e]; exact unique_keys_map_assign _ _ _ h

theorem handle_pg_stats_unique (batch : List (pg_t × pg_stat_t)) :
    ∀ s : PGMonitor, unique_keys s.pending_inc.pg_stat_updates →
      unique_keys
        (batch.foldl (fun t p => (handle_pg_stats_iter t p).1) s).pending_inc.pg_stat_updates := by
  induction batch with
  | nil => intro s h; exact h
  | cons p rest ih =>
    intro s h
    exact ih _ (handle_pg_stats_iter_unique s p h)

theorem handle_all_unique (batches : List MPGStats) :
    ∀ s : PGMonitor, unique_keys s.pending_inc.pg_stat_updates →
      unique_keys (handle_all s batches).pending_inc.pg_stat_updates := by
  induction batches with
  | nil => intro s h; exact h
  | cons b rest ih =>
    intro s h
    exact ih _ (handle_pg_stats_unique b.pg_stat s h)

theorem map_assign_assign_same (m : StatMap) (k : pg_t) (v w : pg_stat_t) :
    map_assign (map_assign m k v) k w = map_assign m k w := by
  induction m with
  | nil => simp [map_assign]
  | cons e rest ih =>
    obtain ⟨k', v'⟩ := e
    by_cases hk : k' = k
    · simp [map_assign, hk]
    · simp [map_assign, hk, ih]

theorem map_assign_comm (m : StatMap) (k j : pg_t) (v w : pg_stat_t) (hjk : j ≠ k)
    (hb : ∃ x, map_find m k = some x) :
    map_assign (map_assign m k v) j w = map_assign (map_assign m j w) k v := by
  induction m with
  | nil =>
    obtain ⟨x, hx⟩ := hb
    simp [map_find] at hx
  | cons e rest ih =>
    obtain ⟨k', v'⟩ := e
    have hkj : ¬ k = j := fun h => hjk h.symm
    by_cases hk : k' = k
    · subst hk
      simp [map_assign, hkj]
    · by_cases hj : k' = j
      · subst hj
        simp [map_assign, hk]
      · have hb2 : ∃ x, map_find rest k = some x := by
          obtain ⟨x, hx⟩ := hb
          simp [map_find, hk] at hx
          exact ⟨x, hx⟩
        simp [map_assign, hk, hj, ih hb2]

theorem map_find_assign_bound (m : StatMap) (k j : pg_t) (w : pg_stat_t)
    (hb : ∃ x, map_find m k = some x) : ∃ x, map_find (map_assign m j w) k = some x := by
  by_cases h : k = j
  · subst h
    exact ⟨w, map_find_assign_same _ _ _⟩
  · rw [map_find_assign_other _ _ _ _ h]
    exact hb

theorem foldl_assign_bound (us : StatMap) (k : pg_t) :
    ∀ m : StatMap, (∃ x, map_find m k = some x) →
      ∃ x, map_find (us.foldl (fun ps e => map_assign ps e.1 e.2) m) k = some x := by
  induction us with
  | nil => intro m hb; exact hb
  | cons e rest ih =>
    intro m hb
    exact ih _ (map_find_assign_bound m k e.1 e.2 hb)

theorem foldl_assign_find_other (us : StatMap) (k : pg_t) :
    ∀ m : StatMap, k ∉ us.map Prod.fst →
      map_find (us.foldl (fun ps e => map_assign ps e.1 e.2) m) k = map_find m k := by
  induction us with
  | nil => intro m _; rfl
  | cons p rest ih =>
    intro m hk
    simp only [List.map_cons, List.mem_cons, not_or] at hk
    rw [List.foldl_cons, ih _ hk.2]
    exact map_find_assign_other _ _ _ _ hk.1

/-- An assignment to `k` made before a run of assignments that assigns to `k`
again, in a map that already binds `k`, leaves no trace. -/
theorem foldl_assign_absorb (us : StatMap) (k : pg_t) (v : pg_stat_t) :
    ∀ m : StatMap, k ∈ us.map Prod.fst → (∃ x, map_find m k = some x) →
      us.foldl (fun ps e => map_assign ps e.1 e.2) (map_assign m k v) =
        us.foldl (fun ps e => map_assign ps e.1 e.2) m := by
  induction us with
  | nil => intro m hk _; simp at hk
  | cons e rest ih =>
    obtain ⟨j, w⟩ := e
    intro m hk hb
    simp only [List.foldl_cons]
    by_cases hj : j = k
    · subst hj
      rw [map_assign_assign_same]
    · have hk2 : k ∈ rest.map Prod.fst := by
        simp only [List.map_cons, List.mem_cons] at hk
        rcases hk with h | h
        · exact absurd h.symm hj
        · exact h
      rw [map_assign_comm m k j v w hj hb]
      exact ih _ hk2 (map_find_assign_bound m k j w hb)

/-- A run of assignments made a second time changes nothing. -/
theorem foldl_assign_idem (us : StatMap) :
    ∀ m : StatMap,
      us.foldl (fun ps e => map_assign ps e.1 e.2)
          (us.foldl (fun ps e => map_assign ps e.1 e.2) m) =
        us.foldl (fun ps e => map_assign ps e.1 e.2) m := by
  induction us with
  | nil => intro m; rfl
  | cons e rest ih =>
    obtain ⟨k, v⟩ := e
    intro m
    simp only [List.foldl_cons]
    by_cases hk : k ∈ rest.map Prod.fst
    · rw [foldl_assign_absorb rest k v _ hk
        (foldl_assign_bound rest k _ ⟨v, map_find_assign_same _ _ _⟩)]
      exact ih _
    · have hfind : map_find
          (rest.foldl (fun ps e => map_assign ps e.1 e.2) (map_assign m k v)) k = some v := by
        rw [foldl_assign_find_other rest k _ hk]
        exact map_find_assign_same _ _ _
      rw [map_assign_of_find _ _ _ hfind]
      exact ih _

/-- What a run of updates does to the members of the map: the stats are
assigned one after another, the version is kept, and each total moves by the
difference of the sums of the stats. -/
theorem foldl_apply_update_eq (us : StatMap) :
    ∀ m : PGMap,
      (us.foldl apply_update m).pg_stat =
          us.foldl (fun ps e => map_assign ps e.1 e.2) m.pg_stat ∧
        (us.foldl apply_update m).total_num_blocks =
          m.total_num_blocks
            + sum_num_blocks (us.foldl (fun ps e => map_assign ps e.1 e.2) m.pg_stat)
            - sum_num_blocks m.pg_stat ∧
        (us.foldl apply_update m).total_usage =
          m.total_usage
            + sum_usage (us.foldl (fun ps e => map_assign ps e.1 e.2) m.pg_stat)
            - sum_usage m.pg_stat := by
  induction us with
  | nil => intro m; simp
  | cons e rest ih =>
    intro m
    obtain ⟨h1, h2, h3⟩ := ih (apply_update m e)
    simp only [List.foldl_cons]
    rw [h1, h2, h3, apply_update_eq]
    simp only [sum_num_blocks_assign, sum_usage_assign]
    refine ⟨trivial, ?_, ?_⟩ <;> ring

theorem apply_update_twice (m : PGMap) (k : pg_t) (x y : pg_stat_t) :
    apply_update (apply_update m (k, x)) (k, y) = apply_update m (k, y) := by
  simp only [apply_update_eq, map_find_assign_same, map_assign_assign_same]
  obtain ⟨ver, ps, tb, tu⟩ := m
  simp

/-- The body of the loop keeps the map equal to the map `m0` with the staged
updates applied: either nothing is staged and the map is `m0`, or one update
is staged, under the default id, and the map is `m0` with it applied. -/
theorem handle_pg_stats_iter_speculative (m0 : PGMap) (s : PGMonitor) (p : pg_t × pg_stat_t)
    (h : (s.pending_inc.pg_stat_updates = [] ∧ s.pg_map = m0) ∨
      ∃ x, s.pending_inc.pg_stat_updates = [(pg_t_default, x)] ∧
        s.pg_map = apply_update m0 (pg_t_default, x)) :
    ((handle_pg_stats_iter s p).1.pending_inc.pg_stat_updates = [] ∧
        (handle_pg_stats_iter s p).1.pg_map = m0) ∨
      ∃ x, (handle_pg_stats_iter s p).1.pending_inc.pg_stat_updates = [(pg_t_default, x)] ∧
        (handle_pg_stats_iter s p).1.pg_map = apply_update m0 (pg_t_default, x) := by
  rcases handle_pg_stats_iter_cases s p with ⟨_, e⟩ | ⟨_, e⟩
  · rw [e]; exact h
  · have hmap : (handle_pg_stats_iter s p).1.pg_map
        = apply_update s.pg_map (pg_t_default, p.2) := by
      rw [e, apply_update_eq]
    right
    refine ⟨p.2, ?_, ?_⟩
    · rw [e]
      rcases h with ⟨h1, _⟩ | ⟨x, h1, _⟩
      · simp [h1, map_assign]
      · simp [h1, map_assign]
    · rw [hmap]
      rcases h with ⟨_, h2⟩ | ⟨x, _, h2⟩
      · rw [h2]
      · rw [h2, apply_update_twice]

theorem handle_pg_stats_speculative (m0 : PGMap) (batch : List (pg_t × pg_stat_t)) :
    ∀ s : PGMonitor,
      ((s.pending_inc.pg_stat_updates = [] ∧ s.pg_map = m0) ∨
        ∃ x, s.pending_inc.pg_stat_updates = [(pg_t_default, x)] ∧
          s.pg_map = apply_update m0 (pg_t_default, x)) →
      (((batch.foldl (fun t p => (handle_pg_stats_iter t p).1) s).pending_inc.pg_stat_updates
            = [] ∧
          (batch.foldl (fun t p => (handle_pg_stats_iter t p).1) s).pg_map = m0) ∨
        ∃ x,
          (batch.foldl (fun t p => (handle_pg_stats_iter t p).1) s).pending_inc.pg_stat_updates
              = [(pg_t_default, x)] ∧
            (batch.foldl (fun t p => (handle_pg_stats_iter t p).1) s).pg_map
              = apply_update m0 (pg_t_default, x)) := by
  induction batch with
  | nil => intro s h; exact h
  | cons p rest ih =>
    intro s h
    exact ih _ (handle_pg_stats_iter_speculative m0 s p h)

theorem handle_all_speculative (m0 : PGMap) (batches : List MPGStats) :
    ∀ s : PGMonitor,
      ((s.pending_inc.pg_stat_updates = [] ∧ s.pg_map = m0) ∨
        ∃ x, s.pending_inc.pg_stat_updates = [(pg_t_default, x)] ∧
          s.pg_map = apply_update m0 (pg_t_default, x)) →
      (((handle_all s batches).pending_inc.pg_stat_updates = [] ∧
          (handle_all s batches).pg_map = m0) ∨
        ∃ x, (handle_all s batches).pending_inc.pg_stat_updates = [(pg_t_default, x)] ∧
          (handle_all s batches).pg_map = apply_update m0 (pg_t_default, x)) := by
  induction batches with
  | nil => intro s h; exact h
  | cons b rest ih =>
    intro s h
    exact ih _ (handle_pg_stats_speculative m0 b.pg_stat s h)

/-- A run of updates applied to a map whose stats already are the result of
that run leaves the stats and the totals as they are. -/
theorem foldl_apply_update_again (us : StatMap) (m : PGMap) (base : StatMap)
    (h : m.pg_stat = us.foldl (fun ps e => map_assign ps e.1 e.2) base) :
    (us.foldl apply_update m).pg_stat = m.pg_stat ∧
      (us.foldl apply_update m).total_num_blocks = m.total_num_blocks ∧
      (us.foldl apply_update m).total_usage = m.total_usage := by
  obtain ⟨b1, b2, b3⟩ := foldl_apply_update_eq us m
  have hidem : us.foldl (fun ps e => map_assign ps e.1 e.2) m.pg_stat = m.pg_stat := by
    rw [h, foldl_assign_idem]
  rw [hidem] at b1 b2 b3
  refine ⟨b1, ?_, ?_⟩
  · rw [b2]; ring
  · rw [b3]; ring

/-- C13, counterexample. The default id is committed with `reported = 5`. A
batch whose only pair is reported at 3 is discarded, a batch whose only pair
is reported at 7 is staged, and the write path returns the same value for
both. -/
theorem C13_counterexample :
    (handle_pg_stats_iter default_at_5 default_report_3).2 = false ∧
      (handle_pg_stats_iter default_at_5 default_report_7).2 = true ∧
      (handle_pg_stats default_at_5 { pg_stat := [default_report_3] }).2 =
        (handle_pg_stats default_at_5 { pg_stat := [default_report_7] }).2 ∧
      (prepare_update default_at_5 (.pgstats { pg_stat := [default_report_3] })).outcome =
        (prepare_update default_at_5 (.pgstats { pg_stat := [default_report_7] })).outcome := by
  decide

/-- C13, amended. For every state and every batch, `handle_pg_stats` returns
`true`, and so does `prepare_update` on a stats report, whether the pairs of
the batch were discarded or staged. -/
theorem C13_write_path_result (s : PGMonitor) (stats : MPGStats) :
    (handle_pg_stats s stats).2 = true ∧
      (prepare_update s (.pgstats stats)).outcome = .returned true := by
  constructor <;> rfl

/-! ## C14: messages of another kind -/

/-- C14, counterexample. On a message of an unknown kind `preprocess_query`
and `prepare_update` fail their `assert`, and so does `prepare_update` on a
capacity query: none of them returns a result. -/
theorem C14_counterexample :
    (preprocess_query p1_at_5 (.other 99)).outcome = .assert_failed ∧
      (prepare_update p1_at_5 (.other 99)).outcome = .assert_failed ∧
      (prepare_update p1_at_5 (.statfs a_statfs)).outcome = .assert_failed := by
  decide

/-- C14, amended. For every message whose kind is neither a stats report nor a
capacity query `preprocess_query` fails its `assert`, and for every message
whose kind is not a stats report `prepare_update` fails its `assert`; in both
cases the map and the pending incremental are unchanged and nothing is
sent. -/
theorem C14_unsupported_kinds (s : PGMonitor) :
    (∀ t : Nat,
        preprocess_query s (.other t) = { state := s, outcome := .assert_failed, sent := [] }) ∧
      (∀ m : Message, (∀ stats, m ≠ .pgstats stats) →
        prepare_update s m = { state := s, outcome := .assert_failed, sent := [] }) := by
  constructor
  · intro t; rfl
  · intro m hm
    cases m with
    | statfs q => rfl
    | pgstats stats => exact absurd rfl (hm stats)
    | other t => rfl

/-- C14, witness. A capacity query handed to `prepare_update` is not a stats
report: the `assert` fails and the state is unchanged. -/
theorem C14_unsupported_kinds_witness :
    prepare_update p1_at_5 (.statfs a_statfs) =
      { state := p1_at_5, outcome := .assert_failed, sent := [] } :=
  (C14_unsupported_kinds p1_at_5).2 (.statfs a_statfs) (by intro stats h; cases h)

/-! ## C15: the capacity query -/

/-- C15. For every state, `preprocess_query` on a capacity query returns
`true`, leaves the map and the pending incremental unchanged, and sends one
reply, the query with its `stfs` filled: `f_blocks` is the total block count
of the map, `f_fsid` is 0, `f_flag` is `ST_NOATIME|ST_NODIRATIME`, and every
other field is 0. -/
theorem C15_capacity_query (s : PGMonitor) (q : MStatfs) :
    (preprocess_query s (.statfs q)).outcome = .returned true ∧
      (preprocess_query s (.statfs q)).state = s ∧
      (preprocess_query s (.statfs q)).sent =
        [{ q with
            stfs :=
              { f_bsize := 0, f_frsize := 0, f_blocks := s.pg_map.total_num_blocks,
                f_bfree := 0, f_bavail := 0, f_files := 0, f_ffree := 0, f_favail := 0,
                f_fsid := 0, f_flag := Int.lor ST_NOATIME ST_NODIRATIME, f_namemax := 0 } }] := by
  refine ⟨rfl, rfl, rfl⟩

/-! ## C16: what the write path leaves alone -/

theorem handle_pg_stats_iter_frame (s : PGMonitor) (p : pg_t × pg_stat_t) :
    (handle_pg_stats_iter s p).1.pg_map.version = s.pg_map.version ∧
      (handle_pg_stats_iter s p).1.pending_inc.version = s.pending_inc.version ∧
      ∀ k : pg_t, k ≠ pg_t_default →
        map_find (handle_pg_stats_iter s p).1.pg_map.pg_stat k = map_find s.pg_map.pg_stat k ∧
          map_find (handle_pg_stats_iter s p).1.pending_inc.pg_stat_updates k =
            map_find s.pending_inc.pg_stat_updates k := by
  rcases handle_pg_stats_iter_cases s p with ⟨_, e⟩ | ⟨_, e⟩
  · rw [e]
    exact ⟨rfl, rfl, fun _ _ => ⟨rfl, rfl⟩⟩
  · rw [e]
    refine ⟨rfl, rfl, fun k hk => ⟨?_, ?_⟩⟩
    · exact map_find_assign_other _ _ _ _ hk
    · exact map_find_assign_other _ _ _ _ hk

theorem handle_pg_stats_frame (batch : List (pg_t × pg_stat_t)) :
    ∀ s : PGMonitor,
      (batch.foldl (fun t p => (handle_pg_stats_iter t p).1) s).pg_map.version
          = s.pg_map.version ∧
        (batch.foldl (fun t p => (handle_pg_stats_iter t p).1) s).pending_inc.version
          = s.pending_inc.version ∧
        ∀ k : pg_t, k ≠ pg_t_default →
          map_find (batch.foldl (fun t p => (handle_pg_stats_iter t p).1) s).pg_map.pg_stat k
              = map_find s.pg_map.pg_stat k ∧
            map_find
                (batch.foldl (fun t p => (handle_pg_stats_iter t p).1) s).pending_inc.pg_stat_updates
                k
              = map_find s.pending_inc.pg_stat_updates k := by
  induction batch with
  | nil => intro s; exact ⟨rfl, rfl, fun _ _ => ⟨rfl, rfl⟩⟩
  | cons p rest ih =>
    intro s
    obtain ⟨h1, h2, h3⟩ := ih (handle_pg_stats_iter s p).1
    obtain ⟨g1, g2, g3⟩ := handle_pg_stats_iter_frame s p
    simp only [List.foldl_cons]
    refine ⟨h1.trans g1, h2.trans g2, fun k hk => ⟨?_, ?_⟩⟩
    · exact (h3 k hk).1.trans (g3 k hk).1
    · exact (h3 k hk).2.trans (g3 k hk).2

/-- C16. For every state and every batch, `handle_pg_stats` changes neither the
version of the map nor the version of the pending incremental, and for every
id `k` other than the default-constructed id the entry of `k` in the stats of
the map and the entry of `k` in the updates of the pending incremental
(presence and value) are the same after the call as before it, whatever ids
the batch contains. -/
theorem C16_write_path_frame (s : PGMonitor) (stats : MPGStats) :
    (handle_pg_stats s stats).1.pg_map.version = s.pg_map.version ∧
      (handle_pg_stats s stats).1.pending_inc.version = s.pending_inc.version ∧
      ∀ k : pg_t, k ≠ pg_t_default →
        map_find (handle_pg_stats s stats).1.pg_map.pg_stat k = map_find s.pg_map.pg_stat k ∧
          map_find (handle_pg_stats s stats).1.pending_inc.pg_stat_updates k =
            map_find s.pending_inc.pg_stat_updates k :=
  handle_pg_stats_frame stats.pg_stat s

/-- C16, witness. `P1` is committed with `reported = 5`; after a batch of two
reports for `P1` the entry of `P1` is the same in the map and nothing is
staged for `P1`. -/
theorem C16_write_path_frame_witness :
    map_find (handle_pg_stats p1_at_5 { pg_stat := [report_3, report_7] }).1.pg_map.pg_stat P1
        = map_find p1_at_5.pg_map.pg_stat P1 ∧
      map_find
          (handle_pg_stats p1_at_5 { pg_stat := [report_3, report_7] }).1.pending_inc.pg_stat_updates
          P1
        = map_find p1_at_5.pending_inc.pg_stat_updates P1 :=
  (C16_write_path_frame p1_at_5 { pg_stat := [report_3, report_7] }).2.2 P1 (by decide)

/-! ## C17: staged updates are in the map -/

/-- C17. In every state reached from a call of `create_pending` by a finite
sequence of calls of `handle_pg_stats`, every id that has an update in the
pending incremental has an entry in the stats of the map with exactly the
same stat. -/
theorem C17_staged_mirrored (s : PGMonitor) (batches : List MPGStats) :
    ∀ (k : pg_t) (w : pg_stat_t),
      map_find (handle_all (create_pending s) batches).pending_inc.pg_stat_updates k = some w →
        map_find (handle_all (create_pending s) batches).pg_map.pg_stat k = some w :=
  handle_all_mirrored batches _ (create_pending_mirrored s)

/-- C17, witness. After `create_pending` and a batch with a report reported
at 7, the update staged under the default id is the entry of the map under
that id. -/
theorem C17_staged_mirrored_witness :
    map_find
        (handle_all (create_pending p1_at_5) [{ pg_stat := [report_7] }]).pg_map.pg_stat
        pg_t_default
      = some report_7.2 :=
  C17_staged_mirrored p1_at_5 [{ pg_stat := [report_7] }] pg_t_default report_7.2 (by decide)

/-! ## C18: a log that is not ahead of the map -/

/-- C18. When the version of the log equals the version of the map,
`update_from_paxos` returns `true` without any read of the log, load of the
stored full map or write to the store, and with the map and the store
unchanged; when the version of the log is smaller than the version of the map
its `assert` fails, likewise before anything is read, loaded, written or
changed. -/
theorem C18_sync_not_ahead {B : Type} [Inhabited B] (c : Codec B) (paxos : Paxos B)
    (store : MonitorStore B) (pg_map : PGMap) :
    (paxos.get_version = pg_map.version →
        (update_from_paxos c paxos store pg_map).outcome = some (.returned true) ∧
          (update_from_paxos c paxos store pg_map).trace = [] ∧
          (update_from_paxos c paxos store pg_map).pg_map = pg_map ∧
          (update_from_paxos c paxos store pg_map).store = store) ∧
      (paxos.get_version < pg_map.version →
        (update_from_paxos c paxos store pg_map).outcome = some .assert_failed ∧
          (update_from_paxos c paxos store pg_map).trace = [] ∧
          (update_from_paxos c paxos store pg_map).pg_map = pg_map ∧
          (update_from_paxos c paxos store pg_map).store = store) := by
  constructor
  · intro h
    rw [update_from_paxos_same c paxos store pg_map h]
    exact ⟨rfl, rfl, rfl, rfl⟩
  · intro h
    rw [update_from_paxos_behind c paxos store pg_map h]
    exact ⟨rfl, rfl, rfl, rfl⟩

/-- C18, witness. With the map at version 3: a log at version 3 gives `true`
and no event; a log at version 2 makes the `assert` fail. -/
theorem C18_sync_not_ahead_witness :
    ((update_from_paxos blob_codec (full_log 3) (store_at 1) p1_at_5.pg_map).outcome
          = some (.returned true) ∧
        (update_from_paxos blob_codec (full_log 3) (store_at 1) p1_at_5.pg_map).trace = []) ∧
      (update_from_paxos blob_codec (full_log 2) (store_at 1) p1_at_5.pg_map).outcome
        = some .assert_failed :=
  ⟨⟨((C18_sync_not_ahead blob_codec (full_log 3) (store_at 1) p1_at_5.pg_map).1
        (by decide)).1,
      ((C18_sync_not_ahead blob_codec (full_log 3) (store_at 1) p1_at_5.pg_map).1
        (by decide)).2.1⟩,
    ((C18_sync_not_ahead blob_codec (full_log 2) (store_at 1) p1_at_5.pg_map).2
      (by decide)).1⟩

end Ceph
